import Mathlib

/-!
Verification of the alignment / clustering / model-merging core of the
audio_pattern_discovery repository.

The Rust source operates on `f32` values.  The embedding models an `f32`
as an exact value of type `F32`: either NaN, one of the two infinities, or
a finite rational.  Arithmetic follows the IEEE-754 special-value rules
(NaN propagation, `inf + ninf = nan`, `0 / 0 = nan`, comparisons with NaN
are false); rounding of finite results is abstracted away (finite
operations are exact), and the two signed zeros are identified.
-/

namespace APD

/-! Rational arithmetic through `mkRat`, so that concrete runs of the
embedded programs can be evaluated inside the kernel (the library's
`Rat.add`, `Rat.mul` and `Rat.inv` are sealed against unfolding); each
operation is proved equal to the corresponding field operation of `ℚ`
below (`qadd_eq`, `qmul_eq`, `qinv_eq`, `qdiv_eq`). -/

/-- Rational addition via `mkRat`. -/
def qadd (a b : ℚ) : ℚ := mkRat (a.num * b.den + b.num * a.den) (a.den * b.den)

/-- Rational multiplication via `mkRat`. -/
def qmul (a b : ℚ) : ℚ := mkRat (a.num * b.num) (a.den * b.den)

/-- Rational inverse via `mkRat` (0 maps to 0, as `Rat.inv` does). -/
def qinv (b : ℚ) : ℚ :=
  if 0 ≤ b.num then mkRat (Int.ofNat b.den) b.num.natAbs
  else mkRat (-(Int.ofNat b.den)) b.num.natAbs

/-- Rational division via `mkRat`. -/
def qdiv (a b : ℚ) : ℚ := qmul a (qinv b)

/-- Model of an `f32` value: NaN, plus or minus infinity, or a finite
rational (rounding abstracted away). -/
inductive F32 where
  | nan : F32
  | inf : F32
  | ninf : F32
  | fin (q : ℚ) : F32
deriving DecidableEq

namespace F32

/-- Model of `f32::is_nan`. -/
def isNan : F32 → Bool
  | nan => true
  | _ => false

/-- Model of `f32::is_finite`. -/
def isFinite : F32 → Bool
  | fin _ => true
  | _ => false

/-- IEEE addition on modelled `f32` values. -/
def add : F32 → F32 → F32
  | nan, _ => nan
  | _, nan => nan
  | inf, ninf => nan
  | ninf, inf => nan
  | inf, _ => inf
  | _, inf => inf
  | ninf, _ => ninf
  | _, ninf => ninf
  | fin a, fin b => fin (qadd a b)

/-- IEEE division on modelled `f32` values (zero is treated as `+0`). -/
def div : F32 → F32 → F32
  | nan, _ => nan
  | _, nan => nan
  | inf, inf => nan
  | inf, ninf => nan
  | ninf, inf => nan
  | ninf, ninf => nan
  | inf, fin d => if 0 ≤ d then inf else ninf
  | ninf, fin d => if 0 ≤ d then ninf else inf
  | fin _, inf => fin 0
  | fin _, ninf => fin 0
  | fin a, fin d =>
      if d = 0 then (if a = 0 then nan else if 0 < a then inf else ninf)
      else fin (qdiv a d)

/-- IEEE strict comparison `<` (false whenever NaN is involved). -/
def lt : F32 → F32 → Bool
  | nan, _ => false
  | _, nan => false
  | ninf, ninf => false
  | ninf, _ => true
  | _, ninf => false
  | inf, _ => false
  | fin _, inf => true
  | fin a, fin b => decide (a < b)

/-- IEEE comparison `<=` (false whenever NaN is involved). -/
def le : F32 → F32 → Bool
  | nan, _ => false
  | _, nan => false
  | ninf, _ => true
  | _, ninf => false
  | _, inf => true
  | inf, fin _ => false
  | fin a, fin b => decide (a ≤ b)

/-- Left fold with `add` starting at `0.0`, the accumulation pattern used
throughout the source (`let mut s = 0.0; for v in xs { s += v }`). -/
def sumF (l : List F32) : F32 := l.foldl add (fin 0)

end F32

/-- One step of insertion sort with respect to `F32.le`. -/
def insertSorted (v : F32) : List F32 → List F32
  | [] => [v]
  | w :: ws => if F32.le v w then v :: w :: ws else w :: insertSorted v ws

/-- Insertion sort with respect to `F32.le`.  The source sorts with
`sort_by(|a, b| a.partial_cmp(b).unwrap())`, which on NaN-free data is a
total order, so any correct sort produces the same list of values. -/
def sortF : List F32 → List F32
  | [] => []
  | v :: vs => insertSorted v (sortF vs)

/-- Model of `numerics::percentile`.  The index `x.len() as f32 * perc`
is cast with `as usize`, which truncates toward zero and saturates at 0;
for the rational model this is `Rat.floor` followed by `Int.toNat`.
Out-of-range indexing panics in the source; the model returns NaN as a
default in that case. -/
def percentile (x : List F32) (perc : ℚ) : F32 :=
  let n : ℚ := qmul (x.length : ℚ) perc
  let numbers := x.filter (fun v => !v.isNan)
  let sorted := sortF numbers
  sorted.getD n.floor.toNat F32.nan

/-! ## Sequence aligner (src/alignments.rs)

The local cost at cell `(i, j)` in the source is
`euclidean(x.vec(i - 1), y.vec(j - 1))`.  The Euclidean distance takes a
real square root, so the embedding abstracts the local distances of a
concrete sequence pair as a given rational-valued function
`d : ℕ → ℕ → ℚ` of the cell coordinates; the dynamic program itself is
translated literally.  `usize` subtraction follows the release-build
wrapping semantics (`0 - 1` wraps to `2^64 - 1`). -/

/-- Model of `numerics::abs` (absolute distance for unsigned). -/
def abs (n m : ℕ) : ℕ := if n > m then n - m else m - n

/-- Model of `numerics::diff` (distance for unsigned bounded by 0). -/
def diff (n m : ℕ) : ℕ := if n > m then n - m else 0

/-- Model of `AlignmentParams`; the three penalties are finite `f32`
weights, modelled as rationals. -/
structure AlignmentParams where
  warping_band : ℕ
  insertion_penalty : ℚ
  deletion_penalty : ℚ
  match_penalty : ℚ
deriving DecidableEq

/-- Model of `AlignmentLabel`. -/
inductive AlignmentLabel where
  | Insertion : AlignmentLabel
  | Deletion : AlignmentLabel
  | Match : AlignmentLabel
deriving DecidableEq

/-- Model of `AlignmentNode`.  `score` is the local distance at this cell
(always a finite Euclidean distance, hence a plain rational);
`score_on_path` is the cumulative cost along the warping path. -/
structure AlignmentNode where
  prev_i : ℕ
  prev_j : ℕ
  label : AlignmentLabel
  score : ℚ
  score_on_path : F32
deriving DecidableEq

/-- Model of `AlignmentNode::cur`. -/
def AlignmentNode.cur (n : AlignmentNode) : ℕ × ℕ :=
  match n.label with
  | .Match => (n.prev_i + 1, n.prev_j + 1)
  | .Insertion => (n.prev_i + 1, n.prev_j)
  | .Deletion => (n.prev_i, n.prev_j + 1)

/-- Model of `AlignmentNode::start_node`. -/
def AlignmentNode.start_node : AlignmentNode :=
  ⟨0, 0, .Match, 0, F32.fin 0⟩

/-- Model of `AlignmentNode::is_start` (the `f32` comparison
`score_on_path == 0.0` is exact equality with `0`). -/
def AlignmentNode.is_start (n : AlignmentNode) : Bool :=
  n.prev_i = 0 && n.prev_j = 0 && n.score_on_path = F32.fin 0

/-- The sparse DP table `HashMap<(usize, usize), AlignmentNode>`,
modelled extensionally as a function to `Option`. -/
def SparseTable := ℕ × ℕ → Option AlignmentNode

/-- Model of `HashMap::insert`. -/
def SparseTable.insert (s : SparseTable) (k : ℕ × ℕ) (v : AlignmentNode) :
    SparseTable :=
  fun k' => if k' = k then some v else s k'

/-- The table seeded by `Alignment::new` (origin `(0,0)` present). -/
def emptyTable : SparseTable :=
  fun k => if k = (0, 0) then some AlignmentNode.start_node else none

/-- Model of `Alignment`. -/
structure Alignment where
  n : ℕ
  m : ℕ
  sparse : SparseTable

/-- Model of `Alignment::new`. -/
def Alignment.new : Alignment := ⟨0, 0, emptyTable⟩

/-- Cumulative cost of a cell, with an absent cell read as `+infinity`
(the `match ... None => INFINITY` pattern of `alignment_score`). -/
def scoreAt (s : SparseTable) (k : ℕ × ℕ) : F32 :=
  match s k with
  | some node => node.score_on_path
  | none => F32.inf

/-- Model of `Alignment::alignment_score`: build the best alignment node
at cell `(i, j)` given the local distance at that cell.  Callers only
pass `i, j ≥ 1`. -/
def alignment_score (s : SparseTable) (i j : ℕ) (distance : ℚ)
    (params : AlignmentParams) : AlignmentNode :=
  let match_score := scoreAt s (i - 1, j - 1)
  let insert_score := scoreAt s (i - 1, j)
  let delete_score := scoreAt s (i, j - 1)
  if F32.lt delete_score match_score && F32.lt delete_score insert_score then
    ⟨i, j - 1, .Deletion, distance,
      F32.add delete_score (F32.fin (qmul params.deletion_penalty distance))⟩
  else if F32.lt insert_score match_score && F32.lt insert_score delete_score then
    ⟨i - 1, j, .Insertion, distance,
      F32.add insert_score (F32.fin (qmul params.insertion_penalty distance))⟩
  else
    ⟨i - 1, j - 1, .Match, distance,
      F32.add match_score (F32.fin (qmul params.match_penalty distance))⟩

/-- The in-band columns of row `i`:
`usize::max(diff(i, w), 1) .. usize::min(i + w, m + 1)`. -/
def rowCols (w m i : ℕ) : List ℕ :=
  List.range' (max (diff i w) 1) (min (i + w) (m + 1) - max (diff i w) 1)

/-- Model of `Alignment::construct_alignment` on a pair of sequences of
lengths `n` and `m` whose local cell distances are `d` (the `last_seen`
variable and the log line have no effect on the result and are dropped). -/
def construct_alignment (d : ℕ → ℕ → ℚ) (n m : ℕ)
    (params : AlignmentParams) : Alignment :=
  let w := max params.warping_band (abs n m) + 2
  { n := n
    m := m
    sparse :=
      (List.range' 1 n).foldl
        (fun s i =>
          (rowCols w m i).foldl
            (fun s j => s.insert (i, j) (alignment_score s i j (d i j) params))
            s)
        emptyTable }

/-- `usize` maximum. -/
def usizeMax : ℕ := 2 ^ 64 - 1

/-- Release-build wrapping `usize` subtraction of 1 (for the in-range
values that occur here). -/
def wsub1 (n : ℕ) : ℕ := if n = 0 then usizeMax else n - 1

/-- Model of `Alignment::score`.  The source computes
`self.sparse.get(&(self.n - 1, self.m - 1))`; with `n` or `m` equal to 0
(and not both) that subtraction wraps in a release build. -/
def Alignment.score (a : Alignment) : F32 :=
  if a.m = 0 ∧ a.n = 0 then F32.inf
  else
    match a.sparse (wsub1 a.n, wsub1 a.m) with
    | some node => F32.div node.score_on_path (F32.fin ((a.n + a.m : ℕ) : ℚ))
    | none => F32.inf

/-- The backtracking loop of `Alignment::path`.  Each step moves to a
predecessor cell with strictly smaller coordinate sum, so `n + m + 1`
fuel is enough on tables built by `construct_alignment`; a missing
predecessor (an indexing panic in the source) cuts the walk. -/
def walkBack (s : SparseTable) : ℕ → AlignmentNode → List AlignmentNode
  | 0, _ => []
  | fuel + 1, node =>
      if node.is_start then []
      else
        node ::
          (match s (node.prev_i, node.prev_j) with
            | some prev => walkBack s fuel prev
            | none => [])

/-- Model of `Alignment::path` (the source pushes nodes from the terminal
cell backwards and then reverses). -/
def Alignment.path (a : Alignment) : List AlignmentNode :=
  if a.n > 0 ∧ a.m > 0 then
    match a.sparse (a.n, a.m) with
    | some node => (walkBack a.sparse (a.n + a.m + 1) node).reverse
    | none => []
  else []

/-! ## Alignment scheduler (AlignmentWorkers::align_all) -/

/-- Model of the `Discovery` configuration, restricted to the fields the
scheduler and aligner consume. -/
structure Discovery where
  alignment_workers : ℕ
  warping_band_percentage : ℚ
  insertion_penalty : ℚ
  deletion_penalty : ℚ
  match_penalty : ℚ

/-- Model of `Discovery::alignment_params`: the `f32`-to-`usize` cast of
`warping_band_percentage * n_size` truncates toward zero. -/
def Discovery.alignment_params (disc : Discovery) (n_size : ℕ) :
    AlignmentParams :=
  { warping_band := (qmul disc.warping_band_percentage (n_size : ℚ)).floor.toNat
    insertion_penalty := disc.insertion_penalty
    match_penalty := disc.match_penalty
    deletion_penalty := disc.deletion_penalty }

/-- The alignment a worker computes for the ordered pair `(i, j)`:
`construct_alignment(&data[i], &data[j], alignment_params(max len))`.
`lens i` is `data[i].len()` and `d i j` the local-distance function of
the pair, abstracted as for `construct_alignment`. -/
def pairAlignment (lens : ℕ → ℕ) (d : ℕ → ℕ → ℕ → ℕ → ℚ)
    (disc : Discovery) (i j : ℕ) : Alignment :=
  construct_alignment (d i j) (lens i) (lens j)
    (disc.alignment_params (max (lens i) (lens j)))

/-- Model of `AlignmentWorkers::align_all` over a corpus of `n`
sequences.  Each worker thread `batch` owns the contiguous row block
`batch * batch_size .. min((batch + 1) * batch_size, n)` and writes every
off-diagonal cell `(i, j)` of its rows into the shared `n * n` buffer,
which starts filled with `Alignment::new()`.  The flag `ok batch` records
whether that worker ran to completion or died in a panic before writing
its cells; the source joins each thread with `let _ = child.join()`,
discarding a panic, so a failed worker's cells keep their initial
`Alignment::new()` value and the call returns normally.  (With
`alignment_workers = 0` the source's `n / workers` panics; the model is
only used with a positive worker count.) -/
def align_all (n : ℕ) (lens : ℕ → ℕ) (d : ℕ → ℕ → ℕ → ℕ → ℚ)
    (disc : Discovery) (ok : ℕ → Bool) : ℕ → Alignment :=
  let batch_size := n / disc.alignment_workers + 1
  (List.range disc.alignment_workers).foldl
    (fun result batch =>
      if ok batch then
        let start := batch * batch_size
        let stop := min ((batch + 1) * batch_size) n
        (List.range' start (stop - start)).foldl
          (fun result i =>
            (List.range n).foldl
              (fun result j =>
                if i ≠ j then
                  fun c =>
                    if c = i * n + j then pairAlignment lens d disc i j
                    else result c
                else result)
              result)
          result
      else result)
    (fun _ => Alignment.new)

/-! ## State-merging engine (src/aligned_model_merging.rs and the
hidden Markov model it builds)

Feature frames are finite `f32` data and stay finite under merging
(only `(a + b) / 2` averaging is applied), so they are modelled as plain
rationals; transition, start and stop mass can become NaN or infinite
through normalization, so those vectors carry `F32` values.  Vector
indexing out of range panics in the source; the model reads a default
(never reached from the constructors used here). -/

/-- List read with default, for `f32` vectors (`v[i]`). -/
def getF (l : List F32) (i : ℕ) : F32 := l.getD i (F32.fin 0)

/-- List read with default, for rational vectors (`v[i]`). -/
def getQ (l : List ℚ) (i : ℕ) : ℚ := l.getD i 0

/-- Model of `NDSequence`, restricted to the fields the merging engine
reads (flat cepstrum frames and the bin count). -/
structure NDSequence where
  n_bins : ℕ
  frames : List ℚ

/-- Model of `NDSequence::len`. -/
def NDSequence.len (s : NDSequence) : ℕ := s.frames.length / s.n_bins

/-- Model of `NDSequence::vec`. -/
def NDSequence.vec (s : NDSequence) (t : ℕ) : List ℚ :=
  (s.frames.drop (t * s.n_bins)).take s.n_bins

/-- Model of `Slice` (a range in an ND sequence). -/
structure Slice where
  start : ℕ
  stop : ℕ
  sequence : NDSequence

/-- Model of `Slice::len`. -/
def Slice.len (s : Slice) : ℕ := s.stop - s.start

/-- Model of `Slice::extract` (the spectrogram fields are dropped: the
merging engine reads only `frames` and `n_bins`). -/
def Slice.extract (s : Slice) : NDSequence :=
  { n_bins := s.sequence.n_bins
    frames := (s.sequence.frames.drop (s.start * s.sequence.n_bins)).take
      ((s.stop - s.start) * s.sequence.n_bins) }

/-- Model of `HiddenMarkovModel` as constructed and mutated by the
state-merging engine.  (`hidden_markov_model.rs` declares a variant of
this struct whose `states` field holds online statistics; the merging
engine's version is used here, and `normalize_transitions` touches only
the fields the two versions share.) -/
structure HiddenMarkovModel where
  n_states : ℕ
  dim : ℕ
  trans : List F32
  start : List F32
  stop : List F32
  states : List ℚ
  is_segmental : List Bool

/-- Row sum of a flat `n * n` matrix, the `scaler` accumulation of
`normalize_transitions` (`for j { scaler += trans[i * n + j] }`). -/
def rowSumL (n : ℕ) (t : List F32) (i : ℕ) : F32 :=
  F32.sumF ((List.range n).map (fun j => getF t (i * n + j)))

/-- Sum of the first `n` entries of a vector, the `start_scaler` /
`stop_scaler` accumulation of `normalize_transitions`. -/
def vecSumL (n : ℕ) (v : List F32) : F32 :=
  F32.sumF ((List.range n).map (fun i => getF v i))

/-- The row-normalization loop of `normalize_transitions`: for each row
in order, accumulate that row's scaler and then divide the row by it. -/
def normTrans (n : ℕ) (trans0 : List F32) : List F32 :=
  (List.range n).foldl
    (fun trans i =>
      let scaler := rowSumL n trans i
      (List.range n).foldl
        (fun trans j =>
          trans.set (i * n + j) (F32.div (getF trans (i * n + j)) scaler))
        trans)
    trans0

/-- Model of `HiddenMarkovModel::normalize_transitions`: accumulate the
start, stop and per-row scalers, divide each transition row by its own
scaler (computed before the row is divided), then divide the start and
stop vectors by theirs. -/
def normalize_transitions (h : HiddenMarkovModel) : HiddenMarkovModel :=
  { h with
    trans := normTrans h.n_states h.trans
    start := (List.range h.n_states).map
      (fun i => F32.div (getF h.start i) (vecSumL h.n_states h.start))
    stop := (List.range h.n_states).map
      (fun i => F32.div (getF h.stop i) (vecSumL h.n_states h.stop)) }

/-- Model of `ModelMerging`.  The `state_map` hash map is modelled as a
total function from `(original_seq, timestep)` pairs to states (a key
miss panics in the source; the model returns the default 0). -/
structure ModelMerging where
  hmm : HiddenMarkovModel
  state_map : ℕ × ℕ → ℕ
  merge_parent : List ℕ

/-- The parent entry of state `p` in the union-find array (out-of-range
reads panic in the source; the model returns `p`, behaving as a root). -/
def parentOf (mp : List ℕ) (p : ℕ) : ℕ := mp.getD p p

/-- The walking root lookup of `ModelMerging::find_parent`, with
explicit fuel: under the invariant `parentOf mp p ≤ p` every step
strictly decreases the index, so fuel `p + 1` reaches the root. -/
def findAux : ℕ → List ℕ → ℕ → ℕ
  | 0, _, p => p
  | fuel + 1, mp, p => if parentOf mp p = p then p else findAux fuel mp (parentOf mp p)

/-- Model of `ModelMerging::find_parent`. -/
def findP (mp : List ℕ) (i : ℕ) : ℕ := findAux (i + 1) mp i

/-- `find_parent` as a method on the model-merging state. -/
def ModelMerging.find_parent (mm : ModelMerging) (i : ℕ) : ℕ :=
  findP mm.merge_parent i

/-- The body of `ModelMerging::merge` in the branch
`state_i <= state_j && state_i != state_j`: fold `state_j`'s outgoing
and incoming transition mass into `state_i` (sequentially, so the later
column pass sees the updated row), add one unit of self-loop mass, sum
start and stop mass, average the feature vectors, OR the segmental flag,
and repoint `state_j`'s union-find parent at `state_i`. -/
def mergeInto (mm : ModelMerging) (state_i state_j : ℕ)
    (from_alignment : Bool) : ModelMerging :=
  let n := mm.hmm.n_states
  let dim := mm.hmm.dim
  let trans := (List.range n).foldl
    (fun trans k =>
      trans.set (state_i * n + k)
        (F32.add (getF trans (state_i * n + k)) (getF trans (state_j * n + k))))
    mm.hmm.trans
  let trans := (List.range n).foldl
    (fun trans k =>
      trans.set (k * n + state_i)
        (F32.add (getF trans (k * n + state_i)) (getF trans (k * n + state_j))))
    trans
  let trans := trans.set (state_i * n + state_i)
    (F32.add (getF trans (state_i * n + state_i)) (F32.fin 1))
  let start := mm.hmm.start.set state_i
    (F32.add (getF mm.hmm.start state_i) (getF mm.hmm.start state_j))
  let stop := mm.hmm.stop.set state_i
    (F32.add (getF mm.hmm.stop state_i) (getF mm.hmm.stop state_j))
  let states := (List.range dim).foldl
    (fun states d =>
      states.set (state_i * dim + d)
        (qdiv (qadd (getQ states (state_i * dim + d))
          (getQ states (state_j * dim + d))) 2))
    mm.hmm.states
  let is_segmental := mm.hmm.is_segmental.set state_i
    ((mm.hmm.is_segmental.getD state_i false) || from_alignment)
  { hmm := { mm.hmm with
      trans := trans
      start := start
      stop := stop
      states := states
      is_segmental := is_segmental }
    state_map := mm.state_map
    merge_parent := mm.merge_parent.set state_j state_i }

/-- Model of `ModelMerging::merge` (the `state_i > state_j` branch
recurses once with the arguments swapped). -/
def ModelMerging.merge (mm : ModelMerging) (state_i state_j : ℕ)
    (from_alignment : Bool) : ModelMerging :=
  if state_i ≤ state_j then
    if state_i ≠ state_j then mergeInto mm state_i state_j from_alignment
    else mm
  else mergeInto mm state_j state_i from_alignment

/-- Model of `MergeOperation`. -/
structure MergeOperation where
  slice_i : ℕ
  slice_j : ℕ
  i : ℕ
  j : ℕ
  dist : F32
  is_from_alignment : Bool
deriving DecidableEq

/-- The application loop of `ModelMerging::merge_all` over an already
generated candidate list.  (`merges_from_alignments` generates that list
from alignment paths; its Euclidean local distances put the generation
outside the rational embedding, and the claims quantify over arbitrary
candidate sets.)  The `closed` hash set is modelled as a list of pairs. -/
def applyStep (acc : ModelMerging × List (ℕ × ℕ)) (op : MergeOperation) :
    ModelMerging × List (ℕ × ℕ) :=
  let i := acc.1.state_map (op.slice_i, op.i)
  let j := acc.1.state_map (op.slice_j, op.j)
  let state_i := acc.1.find_parent i
  let state_j := acc.1.find_parent j
  if (state_i, state_j) ∈ acc.2 then acc
  else
    (acc.1.merge state_i state_j op.is_from_alignment,
      (state_i, state_j) :: (state_j, state_i) :: acc.2)

/-- Model of `ModelMerging::merge_all` proper: run the loop with an
initially empty `closed` set and return the mutated engine. -/
def applyOperations (mm : ModelMerging) (operations : List MergeOperation) :
    ModelMerging :=
  (operations.foldl applyStep (mm, ([] : List (ℕ × ℕ)))).1

/-- The state-map construction loop of `ModelMerging::from_slices`:
enumerate `(member, timestep)` pairs in order, assigning consecutive
state ids; returns the map and the final state count. -/
def buildStateMap (slices : List Slice) : (ℕ × ℕ → ℕ) × ℕ :=
  slices.enum.foldl
    (fun acc p =>
      (List.range p.2.extract.len).foldl
        (fun acc t =>
          (fun k => if k = (p.1, t) then acc.2 else acc.1 k, acc.2 + 1))
        acc)
    (fun _ => 0, 0)

/-- Model of `ModelMerging::from_slices`: one state per (member, frame),
start mass 1 on first frames, stop mass 1 on last frames, unit
transitions along each member chain, raw frames as features, identity
union-find, no segmental flags.  (`slices[0]` panics on an empty input
in the source; the model reads dimension 0 then.) -/
def from_slices (slices : List Slice) : ModelMerging :=
  let dim := (slices.headD ⟨0, 0, ⟨0, []⟩⟩).sequence.n_bins
  let states := slices.foldl (fun acc slice => acc ++ slice.extract.frames) []
  let sm := buildStateMap slices
  let state_map := sm.1
  let n_states := sm.2
  let vectors := slices.enum.foldl
    (fun acc p =>
      let spec := p.2.extract
      (List.range spec.len).foldl
        (fun acc t =>
          let start := if t = 0 then
            acc.1.set (state_map (p.1, t)) (F32.fin 1) else acc.1
          let stop := if t = spec.len - 1 then
            acc.2.1.set (state_map (p.1, t)) (F32.fin 1) else acc.2.1
          let trans := if t < spec.len - 1 then
            acc.2.2.set
              (state_map (p.1, t) * n_states + state_map (p.1, t + 1))
              (F32.fin 1)
            else acc.2.2
          (start, stop, trans))
        acc)
    (List.replicate n_states (F32.fin 0),
     List.replicate n_states (F32.fin 0),
     List.replicate (n_states * n_states) (F32.fin 0))
  { hmm :=
      { n_states := n_states
        dim := dim
        start := vectors.1
        stop := vectors.2.1
        trans := vectors.2.2
        states := states
        is_segmental := List.replicate n_states false }
    state_map := state_map
    merge_parent := List.range n_states }

/-- The `used_states` dense renumbering scan of `ModelMerging::shrink`:
roots in order of first appearance; a root's dense id is its index in
this list. -/
def rootsList (mm : ModelMerging) : List ℕ :=
  ((List.range mm.merge_parent.length).map (fun i => findP mm.merge_parent i)).dedup

/-- The start-vector copy loop of `ModelMerging::shrink`: each original
state's root value is written (possibly repeatedly) at the root's dense
id, matching the source's plain assignments. -/
def shrinkStart (mm : ModelMerging) : List F32 :=
  (List.range mm.hmm.n_states).foldl
    (fun acc i => acc.set ((rootsList mm).indexOf (findP mm.merge_parent i))
      (getF mm.hmm.start (findP mm.merge_parent i)))
    (List.replicate (rootsList mm).length (F32.fin 0))

/-- The stop-vector copy loop of `ModelMerging::shrink`. -/
def shrinkStop (mm : ModelMerging) : List F32 :=
  (List.range mm.hmm.n_states).foldl
    (fun acc i => acc.set ((rootsList mm).indexOf (findP mm.merge_parent i))
      (getF mm.hmm.stop (findP mm.merge_parent i)))
    (List.replicate (rootsList mm).length (F32.fin 0))

/-- The segmental-flag copy loop of `ModelMerging::shrink`. -/
def shrinkSeg (mm : ModelMerging) : List Bool :=
  (List.range mm.hmm.n_states).foldl
    (fun acc i => acc.set ((rootsList mm).indexOf (findP mm.merge_parent i))
      (mm.hmm.is_segmental.getD (findP mm.merge_parent i) false))
    (List.replicate (rootsList mm).length false)

/-- The feature-table copy loop of `ModelMerging::shrink`. -/
def shrinkStates (mm : ModelMerging) : List ℚ :=
  (List.range mm.hmm.n_states).foldl
    (fun acc i =>
      (List.range mm.hmm.dim).foldl
        (fun acc j => acc.set
          ((rootsList mm).indexOf (findP mm.merge_parent i) * mm.hmm.dim + j)
          (getQ mm.hmm.states (findP mm.merge_parent i * mm.hmm.dim + j)))
        acc)
    (List.replicate ((rootsList mm).length * mm.hmm.dim) (0 : ℚ))

/-- The transition-matrix copy loop of `ModelMerging::shrink`: entry
`(root i, root j)` of the compressed matrix is the original entry at the
root pair. -/
def shrinkTrans (mm : ModelMerging) : List F32 :=
  (List.range mm.hmm.n_states).foldl
    (fun acc i =>
      (List.range mm.hmm.n_states).foldl
        (fun acc j => acc.set
          ((rootsList mm).indexOf (findP mm.merge_parent i) * (rootsList mm).length +
            (rootsList mm).indexOf (findP mm.merge_parent j))
          (getF mm.hmm.trans
            (findP mm.merge_parent i * mm.hmm.n_states + findP mm.merge_parent j)))
        acc)
    (List.replicate ((rootsList mm).length * (rootsList mm).length) (F32.fin 0))

/-- The copy phase of `ModelMerging::shrink`, before normalization:
resolve every original state to its root and rebuild all tables over the
dense root ids. -/
def shrinkRaw (mm : ModelMerging) : HiddenMarkovModel :=
  { n_states := (rootsList mm).length
    dim := mm.hmm.dim
    trans := shrinkTrans mm
    start := shrinkStart mm
    stop := shrinkStop mm
    states := shrinkStates mm
    is_segmental := shrinkSeg mm }

/-- Model of `ModelMerging::shrink`: the copy phase followed by
`normalize_transitions` (the log line is dropped). -/
def ModelMerging.shrink (mm : ModelMerging) : HiddenMarkovModel :=
  normalize_transitions (shrinkRaw mm)

/-- The union-find invariant of the merge forest (claim C10): every
parent pointer is at most its own index. -/
def InvP (mp : List ℕ) : Prop := ∀ p, parentOf mp p ≤ p

/-- Two states resolve to the same root of the merge forest. -/
def sameRoot (mp : List ℕ) (u v : ℕ) : Prop := findP mp u = findP mp v

/-- The pair of states a merge candidate refers to, resolved through the
state map. -/
def opStates (sm : ℕ × ℕ → ℕ) (op : MergeOperation) : ℕ × ℕ :=
  (sm (op.slice_i, op.i), sm (op.slice_j, op.j))

/-- The undirected graph on states whose edges are the candidate pairs of
an operation list. -/
def edgeRel (sm : ℕ × ℕ → ℕ) (ops : List MergeOperation) (u v : ℕ) : Prop :=
  ∃ op ∈ ops, (u, v) = opStates sm op ∨ (v, u) = opStates sm op

/-- The finite rational carried by a modelled `f32` value (0 for the
special values); used to state sum lemmas. -/
def F32.toRat : F32 → ℚ
  | F32.fin a => a
  | _ => 0

/-- The transition-row sum of row `i` of an automaton. -/
def rowSum (h : HiddenMarkovModel) (i : ℕ) : F32 := rowSumL h.n_states h.trans i

/-- The start-vector sum of an automaton. -/
def startSum (h : HiddenMarkovModel) : F32 := vecSumL h.n_states h.start

/-- The stop-vector sum of an automaton. -/
def stopSum (h : HiddenMarkovModel) : F32 := vecSumL h.n_states h.stop

/-! ## Agglomerative clusterer (src/clustering.rs)

The `clusters()` hash set is modelled as the deduplicated assignment
list (first-occurrence order); the source iterates it in an unspecified
hash order, which the spec itself marks implementation-defined, and the
properties proved below do not depend on the iteration order chosen. -/

/-- Model of the `Merge` kind tag. -/
inductive Merge where
  | Sequence2Sequence : Merge
  | Sequence2Cluster : Merge
  | Cluster2Sequence : Merge
  | Cluster2Cluster : Merge
deriving DecidableEq

/-- Model of `ClusteringOperation`. -/
structure ClusteringOperation where
  merge_i : ℕ
  merge_j : ℕ
  into : ℕ
  distance : F32
  operation : Merge
deriving DecidableEq

/-- Model of the `AgglomerativeClustering` working state. -/
structure AgglomerativeClustering where
  parents : List ℕ
  distances : List F32
  n_instances : ℕ
  n_clusters : ℕ

/-- The upward walk of `AgglomerativeClustering::cluster`, with explicit
fuel: the parent pointers of this forest always point to strictly larger
in-range indices, so `parents.length` steps reach the root. -/
def clusterAux : ℕ → List ℕ → ℕ → ℕ
  | 0, _, p => p
  | fuel + 1, ps, p =>
      if ps.getD p p = p then p else clusterAux fuel ps (ps.getD p p)

/-- Model of `AgglomerativeClustering::cluster`. -/
def AgglomerativeClustering.cluster (st : AgglomerativeClustering)
    (i : ℕ) : ℕ :=
  clusterAux st.parents.length st.parents i

/-- Model of `AgglomerativeClustering::assignment`. -/
def AgglomerativeClustering.assignment (st : AgglomerativeClustering) :
    List ℕ :=
  (List.range st.n_instances).map st.cluster

/-- Model of `AgglomerativeClustering::clusters` (the set of top-level
cluster roots), as the deduplicated assignment list. -/
def AgglomerativeClustering.clustersList (st : AgglomerativeClustering) :
    List ℕ :=
  st.assignment.dedup

/-- The inner loop body of `AgglomerativeClustering::linkage`: for a
fixed instance `x` of cluster `i`, accumulate the distance to instance
`y` when `y` belongs to cluster `j` and count it in `size_y`. -/
def linkInner (st : AgglomerativeClustering) (assignment : List ℕ)
    (j x : ℕ) (acc2 : F32 × ℚ) (y : ℕ) : F32 × ℚ :=
  if assignment.getD y 0 = j then
    (F32.add acc2.1 (getF st.distances (x * st.n_instances + y)),
      qadd acc2.2 1)
  else acc2

/-- The outer loop body of `AgglomerativeClustering::linkage`: when
instance `x` belongs to cluster `i`, reset `size_y`, run the inner loop
over all instances and count `x` in `size_x`.  The accumulator is
`(size_x, size_y, distance)`. -/
def linkOuter (st : AgglomerativeClustering) (assignment : List ℕ)
    (i j : ℕ) (acc : ℚ × ℚ × F32) (x : ℕ) : ℚ × ℚ × F32 :=
  if assignment.getD x 0 = i then
    let inner := (List.range assignment.length).foldl
      (linkInner st assignment j x) (acc.2.2, (0 : ℚ))
    (qadd acc.1 1, inner.2, inner.1)
  else acc

/-- Model of `AgglomerativeClustering::linkage` (average linkage): scan
all instances of cluster `i`; for each, reset the `size_y` counter and
add up the stored distances to all instances of cluster `j`; finally
divide the accumulated distance by `size_x * size_y`. -/
def AgglomerativeClustering.linkage (st : AgglomerativeClustering)
    (assignment : List ℕ) (i j : ℕ) : F32 :=
  let r := (List.range assignment.length).foldl
    (linkOuter st assignment i j) ((0 : ℚ), (0 : ℚ), F32.fin 0)
  F32.div r.2.2 (F32.fin (qmul r.1 r.2.1))

/-- Model of `AgglomerativeClustering::merge_clusters`: hang both roots
under a fresh node appended at the end and decrement the cluster
counter; returns the new node id. -/
def AgglomerativeClustering.merge_clusters (st : AgglomerativeClustering)
    (p q : ℕ) : AgglomerativeClustering × ℕ :=
  let k := st.parents.length
  ({ st with
      parents := ((st.parents.set p k).set q k) ++ [k]
      n_clusters := st.n_clusters - 1 }, k)

/-- The inner-loop body of the minimum-linkage search in
`AgglomerativeClustering::merge`: a strictly smaller linkage between two
distinct roots replaces the current best `(linkage, (i, j))`. -/
def bestStep (st : AgglomerativeClustering) (assignment : List ℕ)
    (ti : ℕ) (acc : F32 × ℕ × ℕ) (tj : ℕ) : F32 × ℕ × ℕ :=
  if ti ≠ tj then
    if F32.lt (st.linkage assignment ti tj) acc.1 then
      (st.linkage assignment ti tj, (ti, tj))
    else acc
  else acc

/-- Model of `AgglomerativeClustering::merge`: scan all ordered pairs of
distinct current roots for the minimum linkage (initial best is
`(infinity, (0, 0))`, so if no comparison fires the degenerate pair
`(0, 0)` is merged), merge the best pair and record the operation. -/
def AgglomerativeClustering.merge (st : AgglomerativeClustering) :
    ClusteringOperation × AgglomerativeClustering :=
  let assignment := st.assignment
  let clusters := st.clustersList
  let best := clusters.foldl
    (fun acc ti => clusters.foldl (bestStep st assignment ti) acc)
    (F32.inf, ((0 : ℕ), (0 : ℕ)))
  let p := best.2.1
  let q := best.2.2
  let res := st.merge_clusters p q
  let op : Merge :=
    if p < st.n_instances ∧ q < st.n_instances then Merge.Sequence2Sequence
    else if st.n_instances ≤ p ∧ st.n_instances ≤ q then Merge.Cluster2Cluster
    else if st.n_instances ≤ p ∧ q < st.n_instances then Merge.Cluster2Sequence
    else Merge.Sequence2Cluster
  (⟨p, q, res.2, best.1, op⟩, res.1)

/-- The `while n_clusters > 1 && distance < threshold` loop of
`AgglomerativeClustering::clustering`, with explicit fuel (each
iteration decrements the cluster counter, so `n_instances` iterations
always suffice; the counting invariants below hold for any fuel). -/
def clusteringLoop (threshold : F32) :
    ℕ → AgglomerativeClustering → F32 → List ClusteringOperation →
    List ClusteringOperation × AgglomerativeClustering
  | 0, st, _, acc => (acc.reverse, st)
  | fuel + 1, st, distance, acc =>
      if 1 < st.n_clusters ∧ F32.lt distance threshold = true then
        let r := st.merge
        clusteringLoop threshold fuel r.2 r.1.distance (r.1 :: acc)
      else (acc.reverse, st)

/-- Model of `AgglomerativeClustering::clustering`: singleton clusters,
threshold from the percentile of the distance matrix, loop until one
cluster remains or the next linkage reaches the threshold; returns the
operations and the final root set. -/
def AgglomerativeClustering.clustering (distances : List F32)
    (n_instances : ℕ) (perc : ℚ) :
    List ClusteringOperation × List ℕ :=
  let st0 : AgglomerativeClustering :=
    { parents := List.range n_instances
      distances := distances
      n_instances := n_instances
      n_clusters := n_instances }
  let threshold := percentile distances perc
  let r := clusteringLoop threshold n_instances st0 (F32.fin 0) []
  (r.1, r.2.clustersList)

/-- The upward-forest invariant of the clustering parents array: every
in-range entry points to an index at least itself and inside the array. -/
def UpInv (ps : List ℕ) : Prop :=
  ∀ p, p < ps.length → p ≤ ps.getD p p ∧ ps.getD p p < ps.length

/-! ## Concrete instances used by counterexamples and witnesses -/

/-- Concrete parameters for the aligner counterexamples: band 2, all
penalties 1. -/
def exParams : AlignmentParams := ⟨2, 1, 1, 1⟩

/-- Aligning two sequences of length 2 whose local distance is 1
everywhere (for example the one-dimensional sequences `[0, 0]` and
`[1, 1]`). -/
def exAlign : Alignment := construct_alignment (fun _ _ => 1) 2 2 exParams

/-- C9: a corpus of two sequences (each of length 2, constant local
distance 1), scheduled with two workers.  Worker 0 owns both rows
(`batch_size = 2/2 + 1 = 2`); worker 1's row range is empty. -/
def exDisc : Discovery := ⟨2, 1, 1, 1, 1⟩

/-- A one-member cluster with three one-dimensional frames `0, 4, 8`. -/
def exSlice3 : Slice := ⟨0, 3, ⟨1, [0, 4, 8]⟩⟩

/-- Candidate merging frame 1 into frame 0 of member 0. -/
def exOpA : MergeOperation := ⟨0, 0, 1, 0, F32.fin 0, false⟩

/-- Candidate merging frame 2 into frame 1 of member 0. -/
def exOpB : MergeOperation := ⟨0, 0, 2, 1, F32.fin 0, true⟩

/-- A one-member cluster with two one-dimensional frames `0, 1`; its
chain automaton's last state has no outgoing transition mass. -/
def exSliceC2 : Slice := ⟨0, 2, ⟨1, [0, 1]⟩⟩

/-! ## Theorems -/

section RationalPrimitives

/-- `qadd` is rational addition. -/
theorem qadd_eq (a b : ℚ) : qadd a b = a + b := by
  conv_rhs => rw [← Rat.num_div_den a, ← Rat.num_div_den b]
  rw [qadd, Rat.mkRat_eq_div]
  push_cast
  have ha : ((a.den : ℚ)) ≠ 0 := Nat.cast_ne_zero.mpr a.den_nz
  have hb : ((b.den : ℚ)) ≠ 0 := Nat.cast_ne_zero.mpr b.den_nz
  field_simp

/-- `qmul` is rational multiplication. -/
theorem qmul_eq (a b : ℚ) : qmul a b = a * b := by
  conv_rhs => rw [← Rat.num_div_den a, ← Rat.num_div_den b]
  rw [qmul, Rat.mkRat_eq_div]
  push_cast
  have ha : ((a.den : ℚ)) ≠ 0 := Nat.cast_ne_zero.mpr a.den_nz
  have hb : ((b.den : ℚ)) ≠ 0 := Nat.cast_ne_zero.mpr b.den_nz
  field_simp

/-- `qinv` is the rational inverse. -/
theorem qinv_eq (b : ℚ) : qinv b = b⁻¹ := by
  have hinv : b⁻¹ = (b.den : ℚ) / (b.num : ℚ) := by
    conv_lhs => rw [← Rat.num_div_den b]
    rw [inv_div]
  rw [qinv]
  rcases le_or_lt 0 b.num with h | h
  · rw [if_pos h, Rat.mkRat_eq_div, hinv, Int.cast_natAbs, abs_of_nonneg h]
    norm_num
  · rw [if_neg (not_le.mpr h), Rat.mkRat_eq_div, hinv, Int.cast_natAbs,
      abs_of_neg h]
    push_cast
    rw [neg_div_neg_eq]
    norm_num

/-- `qdiv` is rational division. -/
theorem qdiv_eq (a b : ℚ) : qdiv a b = a / b := by
  rw [qdiv, qmul_eq, qinv_eq, div_eq_mul_inv]

end RationalPrimitives

section SortLemmas

/-- Insertion keeps the multiset of elements. -/
theorem insertSorted_perm (v : F32) (l : List F32) :
    (insertSorted v l).Perm (v :: l) := by
  induction l with
  | nil => simp [insertSorted]
  | cons w ws ih =>
      by_cases h : F32.le v w
      · simp [insertSorted, h]
      · simp only [insertSorted, h, Bool.false_eq_true, if_false]
        exact (ih.cons w).trans (List.Perm.swap v w ws)

/-- The sort keeps the multiset of elements. -/
theorem sortF_perm (l : List F32) : (sortF l).Perm l := by
  induction l with
  | nil => simp [sortF]
  | cons v vs ih =>
      exact (insertSorted_perm v (sortF vs)).trans (ih.cons v)

/-- On NaN-free values the comparison `F32.le` is total. -/
theorem le_flip {v w : F32} (hv : v.isNan = false) (hw : w.isNan = false)
    (h : F32.le v w = false) : F32.le w v = true := by
  cases v <;> cases w <;>
    simp_all [F32.le, F32.isNan] <;> linarith

/-- The head of an insertion is either the inserted value or the old head. -/
theorem insertSorted_head (v : F32) (l : List F32) :
    (insertSorted v l).head? = some v ∨ (insertSorted v l).head? = l.head? := by
  cases l with
  | nil => left; simp [insertSorted]
  | cons w ws => by_cases h : F32.le v w <;> simp [insertSorted, h]

/-- Inserting into a NaN-free `F32.le`-chain yields a chain. -/
theorem insertSorted_chain' {v : F32} {l : List F32}
    (hv : v.isNan = false) (hl : ∀ w ∈ l, w.isNan = false)
    (h : List.Chain' (fun a b => F32.le a b = true) l) :
    List.Chain' (fun a b => F32.le a b = true) (insertSorted v l) := by
  induction l with
  | nil => simp [insertSorted]
  | cons w ws ih =>
      by_cases hle : F32.le v w
      · simpa [insertSorted, hle] using h
      · simp only [insertSorted, hle, Bool.false_eq_true, if_false]
        have hw : w.isNan = false := hl w (by simp)
        have hws : ∀ u ∈ ws, u.isNan = false := fun u hu => hl u (by simp [hu])
        rcases List.chain'_cons'.mp h with ⟨hrel, htail⟩
        refine List.chain'_cons'.mpr ⟨?_, ih hws htail⟩
        intro y hy
        rcases insertSorted_head v ws with hhead | hhead
        · rw [hhead] at hy
          cases hy
          exact le_flip hv hw (by simpa using hle)
        · rw [hhead] at hy
          exact hrel y hy

/-- Sorting a NaN-free list yields an `F32.le`-chain. -/
theorem sortF_chain' {l : List F32} (hl : ∀ w ∈ l, w.isNan = false) :
    List.Chain' (fun a b => F32.le a b = true) (sortF l) := by
  induction l with
  | nil => simp [sortF]
  | cons v vs ih =>
      have hv : v.isNan = false := hl v (by simp)
      have hvs : ∀ w ∈ vs, w.isNan = false := fun w hw => hl w (by simp [hw])
      have hmem : ∀ w ∈ sortF vs, w.isNan = false := fun w hw =>
        hvs w ((sortF_perm vs).mem_iff.mp hw)
      exact insertSorted_chain' hv hmem (ih hvs)

end SortLemmas

section AlignmentLemmas

/-- Folding insertions over a list never removes a present key. -/
theorem foldl_insert_isSome {α : Type} (l : List α)
    (F : SparseTable → α → SparseTable)
    (hF : ∀ s a k, (s k).isSome → ((F s a) k).isSome)
    (s : SparseTable) (k : ℕ × ℕ) (h : (s k).isSome) :
    ((l.foldl F s) k).isSome := by
  induction l generalizing s with
  | nil => exact h
  | cons x xs ih => exact ih (F s x) (hF s x k h)

/-- If some list element's step establishes a key and every step
preserves present keys, the fold result has the key. -/
theorem foldl_insert_mem {α : Type} (l : List α)
    (F : SparseTable → α → SparseTable)
    (hF : ∀ s a k, (s k).isSome → ((F s a) k).isSome)
    (a : α) (ha : a ∈ l) (k : ℕ × ℕ)
    (hest : ∀ s, ((F s a) k).isSome)
    (s : SparseTable) : ((l.foldl F s) k).isSome := by
  induction l generalizing s with
  | nil => cases ha
  | cons x xs ih =>
      rcases List.mem_cons.mp ha with rfl | hmem
      · exact foldl_insert_isSome xs F hF (F s a) k (hest s)
      · exact ih hmem (F s x)

/-- An insertion makes its own key present. -/
theorem insert_self_isSome (s : SparseTable) (k : ℕ × ℕ) (v : AlignmentNode) :
    ((s.insert k v) k).isSome := by
  simp [SparseTable.insert]

/-- An insertion keeps present keys present. -/
theorem insert_keeps_isSome (s : SparseTable) (k k' : ℕ × ℕ)
    (v : AlignmentNode) (h : (s k').isSome) : ((s.insert k v) k').isSome := by
  by_cases hk : k' = k <;> simp [SparseTable.insert, hk, h]

/-- Every in-band cell is present in the constructed table. -/
theorem construct_mem (d : ℕ → ℕ → ℚ) (params : AlignmentParams)
    (n m i j : ℕ) (hi1 : 1 ≤ i) (hin : i ≤ n)
    (hj : j ∈ rowCols (max params.warping_band (abs n m) + 2) m i) :
    (((construct_alignment d n m params).sparse) (i, j)).isSome := by
  set w := max params.warping_band (abs n m) + 2 with hw
  have hrowpre : ∀ (i' : ℕ) (s : SparseTable) (k : ℕ × ℕ), (s k).isSome →
      (((rowCols w m i').foldl
        (fun s j => s.insert (i', j) (alignment_score s i' j (d i' j) params)) s) k).isSome := by
    intro i' s k h
    exact foldl_insert_isSome _ _
      (fun s a k h => insert_keeps_isSome s _ k _ h) s k h
  show (((List.range' 1 n).foldl
      (fun s i =>
        (rowCols w m i).foldl
          (fun s j => s.insert (i, j) (alignment_score s i j (d i j) params)) s)
      emptyTable) (i, j)).isSome
  refine foldl_insert_mem _ _ (fun s a k h => hrowpre a s k h) i ?_ (i, j) ?_ emptyTable
  · have : i ∈ List.range' 1 n ↔ 1 ≤ i ∧ i < 1 + n := List.mem_range'_1
    exact this.mpr ⟨hi1, by omega⟩
  · intro s
    exact foldl_insert_mem (rowCols w m i)
      (fun s j' => s.insert (i, j') (alignment_score s i j' (d i j') params))
      (fun s a k h => insert_keeps_isSome s _ k _ h)
      j hj (i, j) (fun s => insert_self_isSome s _ _) s

/-- The terminal column `m` is always inside row `n`'s band: the band
width `w = max(warping_band, |n - m|) + 2` always covers the corner. -/
theorem terminal_in_band (wb m n : ℕ) (hn : 1 ≤ n) (hm : 1 ≤ m) :
    m ∈ rowCols (max wb (abs n m) + 2) m n := by
  have : m ∈ List.range' (max (diff n (max wb (abs n m) + 2)) 1)
      (min (n + (max wb (abs n m) + 2)) (m + 1) -
        max (diff n (max wb (abs n m) + 2)) 1) ↔ _ := List.mem_range'_1
  rw [rowCols, this]
  simp only [abs, diff]
  split <;> split <;> omega

/-- The terminal cell `(n, m)` is present whenever both sequences are
nonempty. -/
theorem terminal_mem (d : ℕ → ℕ → ℚ) (params : AlignmentParams)
    (n m : ℕ) (hn : 1 ≤ n) (hm : 1 ≤ m) :
    (((construct_alignment d n m params).sparse) (n, m)).isSome :=
  construct_mem d params n m n m hn le_rfl
    (terminal_in_band params.warping_band m n hn hm)

/-- With an empty second sequence every row's band is empty. -/
theorem rowCols_zero (w i : ℕ) : rowCols w 0 i = [] := by
  have : min (i + w) 1 - max (diff i w) 1 = 0 := by
    simp only [diff]; split <;> omega
  simp [rowCols, this]

/-- If either sequence is empty, no cell is ever inserted: the table of
the constructed alignment is the seeded one. -/
theorem construct_sparse_empty (d : ℕ → ℕ → ℚ) (params : AlignmentParams)
    (n m : ℕ) (h : n = 0 ∨ m = 0) :
    (construct_alignment d n m params).sparse = emptyTable := by
  rcases h with rfl | rfl
  · rfl
  · show (List.range' 1 n).foldl _ emptyTable = emptyTable
    have hstep : ∀ (s : SparseTable) (i : ℕ),
        (rowCols (max params.warping_band (abs n 0) + 2) 0 i).foldl
          (fun s j => s.insert (i, j) (alignment_score s i j (d i j) params)) s = s := by
      intro s i
      rw [rowCols_zero]
      rfl
    induction (List.range' 1 n) with
    | nil => rfl
    | cons x xs ih => rw [List.foldl_cons, hstep]; exact ih

end AlignmentLemmas

section ClaimC1

/-- C1, counterexample: for the length-2/length-2 alignment with constant
local distance 1, the terminal cell `(n, m) = (2, 2)` is present with
cumulative cost 2, yet `Alignment::score` returns `1/4`, not
`2 / (n + m) = 1/2`: the score is read from cell `(n - 1, m - 1)`, not
from `(n, m)`. -/
theorem score_not_terminal_counterexample :
    exAlign.sparse (2, 2) = some ⟨1, 1, .Match, 1, F32.fin 2⟩ ∧
    exAlign.score = F32.fin (mkRat 1 4) ∧
    exAlign.score ≠ F32.div (F32.fin 2) (F32.fin ((2 + 2 : ℕ) : ℚ)) := by
  refine ⟨by decide, by decide, by decide⟩

/-- C1, amended: for every completed alignment of nonempty sequences, the
normalized score equals the cumulative path cost stored at grid cell
`(n - 1, m - 1)` divided by `(n + m)` when that cell is present in the
sparse table, and is `+infinity` when it is absent; the cell is always
present when `n, m ≥ 2`. -/
theorem score_reads_shifted_cell (d : ℕ → ℕ → ℚ) (params : AlignmentParams)
    (n m : ℕ) (hn : 1 ≤ n) (hm : 1 ≤ m) :
    ((construct_alignment d n m params).score =
      match (construct_alignment d n m params).sparse (n - 1, m - 1) with
      | some node => F32.div node.score_on_path (F32.fin ((n + m : ℕ) : ℚ))
      | none => F32.inf) ∧
    (2 ≤ n → 2 ≤ m →
      (((construct_alignment d n m params).sparse) (n - 1, m - 1)).isSome) := by
  constructor
  · show Alignment.score _ = _
    rw [Alignment.score]
    have hcond : ¬((construct_alignment d n m params).m = 0 ∧
        (construct_alignment d n m params).n = 0) := by
      show ¬(m = 0 ∧ n = 0); omega
    rw [if_neg hcond]
    have h1 : wsub1 (construct_alignment d n m params).n = n - 1 := by
      show wsub1 n = n - 1
      rw [wsub1, if_neg (by omega)]
    have h2 : wsub1 (construct_alignment d n m params).m = m - 1 := by
      show wsub1 m = m - 1
      rw [wsub1, if_neg (by omega)]
    rw [h1, h2]
    rfl
  · intro hn2 hm2
    refine construct_mem d params n m (n - 1) (m - 1) (by omega) (by omega) ?_
    rw [rowCols, List.mem_range'_1]
    simp only [abs, diff]
    split <;> split <;> omega

/-- C1, witness for the amended theorem at `n = m = 2` with constant
local distance 1: the read cell `(1, 1)` holds cost 1, so the score is
`1 / 4`. -/
theorem score_reads_shifted_cell_witness :
    (1 ≤ 2 ∧ 1 ≤ 2) ∧
    ((exAlign.score =
      match exAlign.sparse (1, 1) with
      | some node => F32.div node.score_on_path (F32.fin ((2 + 2 : ℕ) : ℚ))
      | none => F32.inf) ∧
    (2 ≤ 2 → 2 ≤ 2 → ((exAlign.sparse) (1, 1)).isSome)) :=
  ⟨⟨by omega, by omega⟩,
    score_reads_shifted_cell (fun _ _ => 1) exParams 2 2 (by omega) (by omega)⟩

end ClaimC1

section ClaimC4

/-- C4: at every in-band cell `(i, j)` with `i, j ≥ 1`, the constructed
node picks the deletion predecessor `(i, j-1)` if its cumulative cost is
strictly below both the match `(i-1, j-1)` and insertion `(i-1, j)`
costs, else the insertion predecessor if strictly below both others, else
the match predecessor (all ties and the all-absent case included), with
absent predecessors read as cost `+infinity`. -/
theorem alignment_score_selection (s : SparseTable) (i j : ℕ)
    (distance : ℚ) (params : AlignmentParams) (hi : 1 ≤ i) (hj : 1 ≤ j) :
    (∀ k, s k = none → scoreAt s k = F32.inf) ∧
    (F32.lt (scoreAt s (i, j - 1)) (scoreAt s (i - 1, j - 1)) = true →
     F32.lt (scoreAt s (i, j - 1)) (scoreAt s (i - 1, j)) = true →
      alignment_score s i j distance params =
        ⟨i, j - 1, .Deletion, distance,
          F32.add (scoreAt s (i, j - 1))
            (F32.fin (params.deletion_penalty * distance))⟩) ∧
    (¬(F32.lt (scoreAt s (i, j - 1)) (scoreAt s (i - 1, j - 1)) = true ∧
       F32.lt (scoreAt s (i, j - 1)) (scoreAt s (i - 1, j)) = true) →
     F32.lt (scoreAt s (i - 1, j)) (scoreAt s (i - 1, j - 1)) = true →
     F32.lt (scoreAt s (i - 1, j)) (scoreAt s (i, j - 1)) = true →
      alignment_score s i j distance params =
        ⟨i - 1, j, .Insertion, distance,
          F32.add (scoreAt s (i - 1, j))
            (F32.fin (params.insertion_penalty * distance))⟩) ∧
    (¬(F32.lt (scoreAt s (i, j - 1)) (scoreAt s (i - 1, j - 1)) = true ∧
       F32.lt (scoreAt s (i, j - 1)) (scoreAt s (i - 1, j)) = true) →
     ¬(F32.lt (scoreAt s (i - 1, j)) (scoreAt s (i - 1, j - 1)) = true ∧
       F32.lt (scoreAt s (i - 1, j)) (scoreAt s (i, j - 1)) = true) →
      alignment_score s i j distance params =
        ⟨i - 1, j - 1, .Match, distance,
          F32.add (scoreAt s (i - 1, j - 1))
            (F32.fin (params.match_penalty * distance))⟩) := by
  refine ⟨fun k hk => by simp [scoreAt, hk], ?_, ?_, ?_⟩
  · intro h1 h2
    simp [alignment_score, h1, h2, qmul_eq]
  · intro hdel h1 h2
    rw [Classical.not_and_iff_or_not_not] at hdel
    rcases hdel with hd | hd <;>
      simp [alignment_score, Bool.eq_false_iff.mpr hd, h1, h2, qmul_eq]
  · intro hdel hins
    rw [Classical.not_and_iff_or_not_not] at hdel hins
    rcases hdel with hd | hd <;> rcases hins with hi' | hi' <;>
      simp [alignment_score, Bool.eq_false_iff.mpr hd, Bool.eq_false_iff.mpr hi',
        qmul_eq]

/-- C4, witness at the concrete cell `(2, 2)` of the counterexample
alignment's table. -/
theorem alignment_score_selection_witness :
    (1 ≤ 2 ∧ 1 ≤ 2) ∧
    ((∀ k, exAlign.sparse k = none → scoreAt exAlign.sparse k = F32.inf) ∧
    (F32.lt (scoreAt exAlign.sparse (2, 1)) (scoreAt exAlign.sparse (1, 1)) = true →
     F32.lt (scoreAt exAlign.sparse (2, 1)) (scoreAt exAlign.sparse (1, 2)) = true →
      alignment_score exAlign.sparse 2 2 1 exParams =
        ⟨2, 1, .Deletion, 1,
          F32.add (scoreAt exAlign.sparse (2, 1))
            (F32.fin (exParams.deletion_penalty * 1))⟩) ∧
    (¬(F32.lt (scoreAt exAlign.sparse (2, 1)) (scoreAt exAlign.sparse (1, 1)) = true ∧
       F32.lt (scoreAt exAlign.sparse (2, 1)) (scoreAt exAlign.sparse (1, 2)) = true) →
     F32.lt (scoreAt exAlign.sparse (1, 2)) (scoreAt exAlign.sparse (1, 1)) = true →
     F32.lt (scoreAt exAlign.sparse (1, 2)) (scoreAt exAlign.sparse (2, 1)) = true →
      alignment_score exAlign.sparse 2 2 1 exParams =
        ⟨1, 2, .Insertion, 1,
          F32.add (scoreAt exAlign.sparse (1, 2))
            (F32.fin (exParams.insertion_penalty * 1))⟩) ∧
    (¬(F32.lt (scoreAt exAlign.sparse (2, 1)) (scoreAt exAlign.sparse (1, 1)) = true ∧
       F32.lt (scoreAt exAlign.sparse (2, 1)) (scoreAt exAlign.sparse (1, 2)) = true) →
     ¬(F32.lt (scoreAt exAlign.sparse (1, 2)) (scoreAt exAlign.sparse (1, 1)) = true ∧
       F32.lt (scoreAt exAlign.sparse (1, 2)) (scoreAt exAlign.sparse (2, 1)) = true) →
      alignment_score exAlign.sparse 2 2 1 exParams =
        ⟨1, 1, .Match, 1,
          F32.add (scoreAt exAlign.sparse (1, 1))
            (F32.fin (exParams.match_penalty * 1))⟩)) :=
  ⟨⟨by omega, by omega⟩,
    alignment_score_selection exAlign.sparse 2 2 1 exParams (by omega) (by omega)⟩

end ClaimC4

section ClaimC5

/-- C5: whenever the terminal cell `(n, m)` is not reached - in
particular when at least one sequence is empty (with both nonempty the
band always covers the terminal cell, see `terminal_mem`) - the
construction completes, `Alignment::score` returns `+infinity` and
`Alignment::path` returns the empty path. -/
theorem unreached_terminal_score_inf_path_empty (d : ℕ → ℕ → ℚ)
    (params : AlignmentParams) (n m : ℕ)
    (h : (construct_alignment d n m params).sparse (n, m) = none ∨
      n = 0 ∨ m = 0) :
    (construct_alignment d n m params).score = F32.inf ∧
    (construct_alignment d n m params).path = [] := by
  have hnm : n = 0 ∨ m = 0 := by
    rcases h with hnone | h0 | h0
    · by_contra hc
      push_neg at hc
      have := terminal_mem d params n m (by omega) (by omega)
      rw [hnone] at this
      simp at this
    · exact Or.inl h0
    · exact Or.inr h0
  have hsp := construct_sparse_empty d params n m hnm
  constructor
  · show Alignment.score _ = _
    rw [Alignment.score]
    by_cases hz : m = 0 ∧ n = 0
    · have hz' : (construct_alignment d n m params).m = 0 ∧
          (construct_alignment d n m params).n = 0 := hz
      rw [if_pos hz']
    · have hz' : ¬((construct_alignment d n m params).m = 0 ∧
          (construct_alignment d n m params).n = 0) := hz
      rw [if_neg hz']
      have hkey : emptyTable (wsub1 n, wsub1 m) = none := by
        rw [emptyTable]
        have hmax : usizeMax ≠ 0 := by rw [usizeMax]; norm_num
        have hw0 : wsub1 0 = usizeMax := rfl
        rcases hnm with rfl | rfl
        · rw [if_neg]
          intro hcontra
          have h2 : wsub1 0 = 0 := congrArg Prod.fst hcontra
          exact hmax (hw0.symm.trans h2)
        · rw [if_neg]
          intro hcontra
          have h2 : wsub1 0 = 0 := congrArg Prod.snd hcontra
          exact hmax (hw0.symm.trans h2)
      show (match (construct_alignment d n m params).sparse
        (wsub1 (construct_alignment d n m params).n,
         wsub1 (construct_alignment d n m params).m) with
        | some node => F32.div node.score_on_path
            (F32.fin (((construct_alignment d n m params).n +
              (construct_alignment d n m params).m : ℕ) : ℚ))
        | none => F32.inf) = F32.inf
      have : (construct_alignment d n m params).sparse
          (wsub1 (construct_alignment d n m params).n,
           wsub1 (construct_alignment d n m params).m) = none := by
        show (construct_alignment d n m params).sparse (wsub1 n, wsub1 m) = none
        rw [hsp, hkey]
      rw [this]
  · show Alignment.path _ = _
    rw [Alignment.path]
    have : ¬((construct_alignment d n m params).n > 0 ∧
        (construct_alignment d n m params).m > 0) := by
      show ¬(n > 0 ∧ m > 0); omega
    rw [if_neg this]

/-- C5, witness: an empty first sequence against a length-3 second
sequence yields infinite score and the empty path. -/
theorem unreached_terminal_witness :
    ((construct_alignment (fun _ _ => 1) 0 3 exParams).sparse (0, 3) = none ∨
      (0 : ℕ) = 0 ∨ (3 : ℕ) = 0) ∧
    ((construct_alignment (fun _ _ => 1) 0 3 exParams).score = F32.inf ∧
     (construct_alignment (fun _ _ => 1) 0 3 exParams).path = []) :=
  ⟨Or.inr (Or.inl rfl),
    unreached_terminal_score_inf_path_empty (fun _ _ => 1) exParams 0 3
      (Or.inr (Or.inl rfl))⟩

end ClaimC5

section ClaimC8

/-- C8, counterexample: `percentile` keeps infinite values.  On the input
`[+inf, 0.0]` with percentile `0.5`, nothing is filtered (only NaN would
be), the sorted data is `[0.0, +inf]`, and the returned value is `+inf` -
a non-finite value - so the percentile is not computed over only the
finite values of the input. -/
theorem percentile_keeps_infinities :
    percentile [F32.inf, F32.fin 0] (mkRat 1 2) = F32.inf ∧
    (percentile [F32.inf, F32.fin 0] (mkRat 1 2)).isFinite = false ∧
    List.filter (fun v => !v.isNan) [F32.inf, F32.fin 0] ≠
      List.filter (fun v => v.isFinite) [F32.inf, F32.fin 0] := by
  refine ⟨by decide, by decide, by decide⟩

/-- C8, amended: `percentile` removes exactly the NaN values before
sorting and computes the returned value over all non-NaN values of the
input (finite or infinite): the sorted list is a permutation of the
NaN-free input values, is ordered by the IEEE `<=`, and the result is its
entry at index `floor(len * perc)` (NaN standing in for the source's
out-of-range panic). -/
theorem percentile_filters_exactly_nan (x : List F32) (p : ℚ) :
    ∃ l : List F32,
      l.Perm (x.filter (fun v => !v.isNan)) ∧
      List.Chain' (fun a b => F32.le a b = true) l ∧
      percentile x p = l.getD (((x.length : ℚ) * p).floor.toNat) F32.nan := by
  refine ⟨sortF (x.filter (fun v => !v.isNan)), sortF_perm _, ?_, ?_⟩
  · refine sortF_chain' ?_
    intro w hw
    have := List.of_mem_filter hw
    simpa using this
  · show (sortF (x.filter (fun v => !v.isNan))).getD
      ((qmul (x.length : ℚ) p).floor.toNat) F32.nan = _
    rw [qmul_eq]

end ClaimC8

section ClaimC9

/-- C9: `align_all` when every worker completes: cell `(0, 1)` holds the
computed pair alignment (its dimensions are the sequence lengths). -/
theorem align_all_ok_fills_cells :
    (align_all 2 (fun _ => 2) (fun _ _ _ _ => 1) exDisc (fun _ => true)
      (0 * 2 + 1)).n = 2 ∧
    (align_all 2 (fun _ => 2) (fun _ _ _ _ => 1) exDisc (fun _ => true)
      (0 * 2 + 1)).m = 2 ∧
    (align_all 2 (fun _ => 2) (fun _ _ _ _ => 1) exDisc (fun _ => true)
      (0 * 2 + 1)).score = F32.fin (mkRat 1 4) := by
  refine ⟨by decide, by decide, by decide⟩

/-- C9: if worker 0 dies in a panic, `align_all` discards the `join`
error (`let _ = child.join()`) and returns normally with worker 0's cells
still holding the default `Alignment::new()` value - dimensions 0 and
score `+infinity` - instead of aborting the scheduling call. -/
theorem align_all_ignores_failed_worker :
    (align_all 2 (fun _ => 2) (fun _ _ _ _ => 1) exDisc (fun b => b ≠ 0)
      (0 * 2 + 1)).n = 0 ∧
    (align_all 2 (fun _ => 2) (fun _ _ _ _ => 1) exDisc (fun b => b ≠ 0)
      (0 * 2 + 1)).m = 0 ∧
    (align_all 2 (fun _ => 2) (fun _ _ _ _ => 1) exDisc (fun b => b ≠ 0)
      (0 * 2 + 1)).score = F32.inf := by
  refine ⟨by decide, by decide, by decide⟩

end ClaimC9

section UnionFindLemmas

/-- Reading a set list at the written (in-range) index. -/
theorem getD_set_self {α : Type} (l : List α) (b : ℕ) (a d : α)
    (h : b < l.length) : (l.set b a).getD b d = a := by
  induction l generalizing b with
  | nil => cases h
  | cons x xs ih =>
      cases b with
      | zero => rfl
      | succ b' => exact ih b' (by simpa using h)

/-- Reading a set list away from the written index. -/
theorem getD_set_ne {α : Type} (l : List α) (b u : ℕ) (a d : α)
    (h : u ≠ b) : (l.set b a).getD u d = l.getD u d := by
  induction l generalizing b u with
  | nil => rfl
  | cons x xs ih =>
      cases b with
      | zero =>
          cases u with
          | zero => exact absurd rfl h
          | succ u' => rfl
      | succ b' =>
          cases u with
          | zero => rfl
          | succ u' => exact ih b' u' (fun hc => h (by rw [hc]))

/-- The identity forest: every state is its own parent. -/
theorem parentOf_range (n p : ℕ) : parentOf (List.range n) p = p := by
  by_cases h : p < n
  · simp [parentOf, List.getD, h]
  · rw [parentOf, List.getD_eq_default]
    simpa using not_lt.mp h

/-- Root lookup in the identity forest is the identity. -/
theorem findP_range (n u : ℕ) : findP (List.range n) u = u := by
  rw [findP, findAux, if_pos (parentOf_range n u)]

/-- The identity forest satisfies the parent invariant. -/
theorem InvP_range (n : ℕ) : InvP (List.range n) := fun p => le_of_eq (parentOf_range n p)

/-- A non-root parent pointer strictly decreases under the invariant. -/
theorem parentOf_lt_of_ne {mp : List ℕ} (hinv : InvP mp) {s : ℕ}
    (h : parentOf mp s ≠ s) : parentOf mp s < s :=
  lt_of_le_of_ne (hinv s) h

/-- Fuel irrelevance of the root walk: any fuel of at least `p + 1`
computes `findP` (the walk strictly decreases, so it terminates). -/
theorem findAux_fuel {mp : List ℕ} (hinv : InvP mp) :
    ∀ (p fuel : ℕ), p + 1 ≤ fuel → findAux fuel mp p = findP mp p := by
  intro p
  induction p using Nat.strong_induction_on with
  | _ p ih =>
      intro fuel hfuel
      match fuel, hfuel with
      | fuel + 1, _ =>
        rw [findAux, findP, findAux]
        by_cases hroot : parentOf mp p = p
        · rw [if_pos hroot, if_pos hroot]
        · rw [if_neg hroot, if_neg hroot]
          have hlt : parentOf mp p < p := parentOf_lt_of_ne hinv hroot
          rw [ih (parentOf mp p) hlt fuel (by omega),
            ih (parentOf mp p) hlt p (by omega)]

/-- The walking find returns a root. -/
theorem findP_root {mp : List ℕ} (hinv : InvP mp) (p : ℕ) :
    parentOf mp (findP mp p) = findP mp p := by
  induction p using Nat.strong_induction_on with
  | _ p ih =>
      rw [findP, findAux]
      by_cases hroot : parentOf mp p = p
      · rw [if_pos hroot]
        exact hroot
      · rw [if_neg hroot]
        have hlt : parentOf mp p < p := parentOf_lt_of_ne hinv hroot
        rw [findAux_fuel hinv (parentOf mp p) p (by omega)]
        exact ih (parentOf mp p) hlt

/-- The root of a state is at most the state. -/
theorem findP_le {mp : List ℕ} (hinv : InvP mp) (p : ℕ) : findP mp p ≤ p := by
  induction p using Nat.strong_induction_on with
  | _ p ih =>
      rw [findP, findAux]
      by_cases hroot : parentOf mp p = p
      · rw [if_pos hroot]
      · rw [if_neg hroot]
        have hlt : parentOf mp p < p := parentOf_lt_of_ne hinv hroot
        rw [findAux_fuel hinv (parentOf mp p) p (by omega)]
        exact le_trans (ih (parentOf mp p) hlt) (le_of_lt hlt)

/-- Finding the root of a root is that root. -/
theorem findP_of_root {mp : List ℕ} {r : ℕ} (h : parentOf mp r = r) :
    findP mp r = r := by
  rw [findP, findAux, if_pos h]

/-- The walking find is idempotent under the invariant. -/
theorem findP_idem {mp : List ℕ} (hinv : InvP mp) (p : ℕ) :
    findP mp (findP mp p) = findP mp p :=
  findP_of_root (findP_root hinv p)

/-- Setting an index at or above its value preserves the invariant. -/
theorem InvP_set {mp : List ℕ} (hinv : InvP mp) {a b : ℕ} (hab : a ≤ b) :
    InvP (mp.set b a) := by
  intro p
  by_cases hp : p = b
  · subst hp
    by_cases hlen : p < mp.length
    · rw [parentOf, getD_set_self _ _ _ _ hlen]
      exact hab
    · rw [parentOf, List.getD_eq_default]
      simpa using not_lt.mp hlen
  · rw [parentOf, getD_set_ne _ _ _ _ _ hp]
    exact hinv p

/-- Walks entirely below a set index are unchanged by the set. -/
theorem findP_set_below {mp : List ℕ} (hinv : InvP mp) {a b : ℕ}
    (hab : a ≤ b) : ∀ u, u < b → findP (mp.set b a) u = findP mp u := by
  intro u
  induction u using Nat.strong_induction_on with
  | _ u ih =>
      intro hu
      have hpar : parentOf (mp.set b a) u = parentOf mp u := by
        rw [parentOf, getD_set_ne _ _ _ _ _ (by omega), parentOf]
      rw [findP, findAux, hpar, findP, findAux]
      by_cases hroot : parentOf mp u = u
      · rw [if_pos hroot, if_pos hroot]
      · rw [if_neg hroot, if_neg hroot]
        have hlt : parentOf mp u < u := parentOf_lt_of_ne hinv hroot
        rw [findAux_fuel (InvP_set hinv hab) (parentOf mp u) u (by omega),
          findAux_fuel hinv (parentOf mp u) u (by omega)]
        exact ih (parentOf mp u) hlt (by omega)

/-- The union step: after repointing root `b` at the smaller root `a`,
every state whose old root was `b` now resolves to `a`'s root, and every
other state keeps its root. -/
theorem findP_set_union {mp : List ℕ} (hinv : InvP mp) {a b : ℕ}
    (hab : a < b) (hblen : b < mp.length) (hbroot : parentOf mp b = b) :
    ∀ u, findP (mp.set b a) u =
      if findP mp u = b then findP mp a else findP mp u := by
  intro u
  induction u using Nat.strong_induction_on with
  | _ u ih =>
      by_cases hub : u = b
      · subst hub
        have hroot : findP mp u = u := findP_of_root hbroot
        rw [if_pos hroot]
        have hpar : parentOf (mp.set u a) u = a := by
          rw [parentOf, getD_set_self _ _ _ _ hblen]
        rw [findP, findAux, hpar, if_neg (by omega)]
        rw [findAux_fuel (InvP_set hinv (le_of_lt hab)) a u (by omega)]
        exact findP_set_below hinv (le_of_lt hab) a hab
      · have hpar : parentOf (mp.set b a) u = parentOf mp u := by
          rw [parentOf, getD_set_ne _ _ _ _ _ hub, parentOf]
        by_cases hroot : parentOf mp u = u
        · have h1 : findP mp u = u := findP_of_root hroot
          have h2 : findP (mp.set b a) u = u := findP_of_root (by rw [hpar]; exact hroot)
          rw [h1, h2, if_neg hub]
        · have hlt : parentOf mp u < u := parentOf_lt_of_ne hinv hroot
          have e1 : findP (mp.set b a) u = findP (mp.set b a) (parentOf mp u) := by
            rw [findP, findAux, hpar, if_neg hroot,
              findAux_fuel (InvP_set hinv (le_of_lt hab)) (parentOf mp u) u (by omega)]
          have e2 : findP mp u = findP mp (parentOf mp u) := by
            rw [findP, findAux, if_neg hroot,
              findAux_fuel hinv (parentOf mp u) u (by omega)]
          rw [e1, e2]
          exact ih (parentOf mp u) hlt

/-- `mergeInto` only repoints the absorbed state's parent. -/
theorem mergeInto_merge_parent (mm : ModelMerging) (a b : ℕ) (fa : Bool) :
    (mergeInto mm a b fa).merge_parent = mm.merge_parent.set b a := rfl

/-- `merge` preserves the parent invariant, whatever states it is
called with. -/
theorem InvP_merge {mm : ModelMerging} (hinv : InvP mm.merge_parent)
    (i j : ℕ) (fa : Bool) : InvP (mm.merge i j fa).merge_parent := by
  rw [ModelMerging.merge]
  by_cases hle : i ≤ j
  · rw [if_pos hle]
    by_cases hne : i ≠ j
    · rw [if_pos hne, mergeInto_merge_parent]
      exact InvP_set hinv hle
    · rw [if_neg hne]
      exact hinv
  · rw [if_neg hle, mergeInto_merge_parent]
    exact InvP_set hinv (by omega)

/-- `merge` preserves the length of the parent array. -/
theorem merge_parent_length (mm : ModelMerging) (i j : ℕ) (fa : Bool) :
    (mm.merge i j fa).merge_parent.length = mm.merge_parent.length := by
  rw [ModelMerging.merge]
  by_cases hle : i ≤ j
  · by_cases hne : i ≠ j <;>
      simp [hle, hne, mergeInto_merge_parent]
  · simp [hle, mergeInto_merge_parent]

/-- `merge` does not touch the state map. -/
theorem merge_state_map (mm : ModelMerging) (i j : ℕ) (fa : Bool) :
    (mm.merge i j fa).state_map = mm.state_map := by
  rw [ModelMerging.merge]
  by_cases hle : i ≤ j
  · by_cases hne : i ≠ j <;> simp [hle, hne, mergeInto]
  · simp [hle, mergeInto]

/-- One `merge_all` step preserves the invariant. -/
theorem InvP_applyStep {acc : ModelMerging × List (ℕ × ℕ)}
    (hinv : InvP acc.1.merge_parent) (op : MergeOperation) :
    InvP (applyStep acc op).1.merge_parent := by
  rw [applyStep]
  split
  · exact hinv
  · exact InvP_merge hinv _ _ _

/-- The whole application loop preserves the invariant. -/
theorem InvP_applyOps {mm : ModelMerging} (hinv : InvP mm.merge_parent)
    (ops : List MergeOperation) :
    InvP (applyOperations mm ops).merge_parent := by
  rw [applyOperations]
  have : ∀ (acc : ModelMerging × List (ℕ × ℕ)), InvP acc.1.merge_parent →
      InvP (ops.foldl applyStep acc).1.merge_parent := by
    induction ops with
    | nil => exact fun acc h => h
    | cons op rest ih =>
        intro acc h
        exact ih _ (InvP_applyStep h op)
  exact this (mm, []) hinv

/-- The initial chain forest of `from_slices` is the identity. -/
theorem from_slices_merge_parent (slices : List Slice) :
    (from_slices slices).merge_parent = List.range (buildStateMap slices).2 := rfl

end UnionFindLemmas

section ClaimC10

/-- C10: the merge forest satisfies `merge_parent[s] <= s` for every
state: it holds after `from_slices` (the identity forest), it is
preserved by every `merge` call, a non-root pointer strictly decreases,
and consequently the root walk of `find_parent` terminates: any fuel of
at least `s + 1` computes the same root, and that root is a fixed point
of the parent array. -/
theorem merge_parent_le_invariant (slices : List Slice) :
    InvP (from_slices slices).merge_parent ∧
    (∀ (mm : ModelMerging) (i j : ℕ) (fa : Bool), InvP mm.merge_parent →
      InvP (mm.merge i j fa).merge_parent) ∧
    (∀ (mp : List ℕ) (s : ℕ), InvP mp → parentOf mp s ≠ s →
      parentOf mp s < s) ∧
    (∀ (mp : List ℕ) (s fuel : ℕ), InvP mp → s + 1 ≤ fuel →
      findAux fuel mp s = findP mp s) ∧
    (∀ (mp : List ℕ) (s : ℕ), InvP mp →
      parentOf mp (findP mp s) = findP mp s) := by
  refine ⟨?_, ?_, ?_, ?_, ?_⟩
  · rw [from_slices_merge_parent]
    exact InvP_range _
  · exact fun mm i j fa hinv => InvP_merge hinv i j fa
  · exact fun mp s hinv h => parentOf_lt_of_ne hinv h
  · exact fun mp s fuel hinv h => findAux_fuel hinv s fuel h
  · exact fun mp s hinv => findP_root hinv s

/-- C10, witness: the concrete two-state chain of `exSliceC2` with one
merge applied keeps the invariant, and the walk from state 1 is stable
for any larger fuel. -/
theorem merge_parent_le_invariant_witness :
    InvP (from_slices [⟨0, 2, ⟨1, [0, 1]⟩⟩]).merge_parent ∧
    (InvP [0, 0] → InvP ((from_slices [⟨0, 2, ⟨1, [0, 1]⟩⟩]).merge 0 1
      false).merge_parent) ∧
    (InvP [0, 0] → (1 : ℕ) + 1 ≤ 5 → findAux 5 [0, 0] 1 = findP [0, 0] 1) :=
  ⟨(merge_parent_le_invariant [⟨0, 2, ⟨1, [0, 1]⟩⟩]).1,
    fun _ => (merge_parent_le_invariant [⟨0, 2, ⟨1, [0, 1]⟩⟩]).2.1
      (from_slices [⟨0, 2, ⟨1, [0, 1]⟩⟩]) 0 1 false
      (merge_parent_le_invariant [⟨0, 2, ⟨1, [0, 1]⟩⟩]).1,
    fun h h5 => (merge_parent_le_invariant [⟨0, 2, ⟨1, [0, 1]⟩⟩]).2.2.2.1
      [0, 0] 1 5 h h5⟩

end ClaimC10

section ClaimC7

/-- C7: after any sequence of state merges applied to a chain automaton,
the root lookup is idempotent (`find(find(s)) = find(s)` for every
state), and merging two distinct resolved roots makes the smaller root
the surviving root of both. -/
theorem find_idempotent_min_root_survives (slices : List Slice)
    (ops : List MergeOperation) :
    (∀ s : ℕ,
      (applyOperations (from_slices slices) ops).find_parent
        ((applyOperations (from_slices slices) ops).find_parent s) =
      (applyOperations (from_slices slices) ops).find_parent s) ∧
    (∀ (mm : ModelMerging) (i j : ℕ) (fa : Bool),
      InvP mm.merge_parent →
      mm.find_parent i ≠ mm.find_parent j →
      mm.find_parent i < mm.merge_parent.length →
      mm.find_parent j < mm.merge_parent.length →
      (mm.merge (mm.find_parent i) (mm.find_parent j) fa).find_parent
          (mm.find_parent i) = min (mm.find_parent i) (mm.find_parent j) ∧
      (mm.merge (mm.find_parent i) (mm.find_parent j) fa).find_parent
          (mm.find_parent j) = min (mm.find_parent i) (mm.find_parent j)) := by
  constructor
  · intro s
    have hinv : InvP (applyOperations (from_slices slices) ops).merge_parent :=
      InvP_applyOps (by rw [from_slices_merge_parent]; exact InvP_range _) ops
    exact findP_idem hinv _
  · intro mm i j fa hinv hne hilen hjlen
    set ri := mm.find_parent i with hri
    set rj := mm.find_parent j with hrj
    have hiroot : parentOf mm.merge_parent ri = ri := findP_root hinv i
    have hjroot : parentOf mm.merge_parent rj = rj := findP_root hinv j
    rcases lt_or_gt_of_ne hne with hlt | hlt
    · have hmerge : mm.merge ri rj fa = mergeInto mm ri rj fa := by
        rw [ModelMerging.merge, if_pos (le_of_lt hlt), if_pos (by omega)]
      rw [hmerge]
      have hmp : (mergeInto mm ri rj fa).merge_parent =
          mm.merge_parent.set rj ri := rfl
      constructor
      · show findP (mergeInto mm ri rj fa).merge_parent ri = min ri rj
        rw [hmp, findP_set_union hinv hlt hjlen hjroot ri,
          findP_of_root hiroot, if_neg (by omega)]
        omega
      · show findP (mergeInto mm ri rj fa).merge_parent rj = min ri rj
        rw [hmp, findP_set_union hinv hlt hjlen hjroot rj,
          findP_of_root hjroot, if_pos rfl, findP_of_root hiroot]
        omega
    · have hmerge : mm.merge ri rj fa = mergeInto mm rj ri fa := by
        rw [ModelMerging.merge, if_neg (by omega)]
      rw [hmerge]
      have hmp : (mergeInto mm rj ri fa).merge_parent =
          mm.merge_parent.set ri rj := rfl
      constructor
      · show findP (mergeInto mm rj ri fa).merge_parent ri = min ri rj
        rw [hmp, findP_set_union hinv hlt hilen hiroot ri,
          findP_of_root hiroot, if_pos rfl, findP_of_root hjroot]
        omega
      · show findP (mergeInto mm rj ri fa).merge_parent rj = min ri rj
        rw [hmp, findP_set_union hinv hlt hilen hiroot rj,
          findP_of_root hjroot, if_neg (by omega)]
        omega

/-- C7, witness for the surviving-root clause at the concrete three-state
chain: merging the resolved roots of states 1 and 0 keeps root 0. -/
theorem find_idempotent_min_root_survives_witness :
    (InvP (from_slices [⟨0, 3, ⟨1, [0, 4, 8]⟩⟩]).merge_parent ∧
      (from_slices [⟨0, 3, ⟨1, [0, 4, 8]⟩⟩]).find_parent 1 ≠
        (from_slices [⟨0, 3, ⟨1, [0, 4, 8]⟩⟩]).find_parent 0 ∧
      (from_slices [⟨0, 3, ⟨1, [0, 4, 8]⟩⟩]).find_parent 1 <
        (from_slices [⟨0, 3, ⟨1, [0, 4, 8]⟩⟩]).merge_parent.length ∧
      (from_slices [⟨0, 3, ⟨1, [0, 4, 8]⟩⟩]).find_parent 0 <
        (from_slices [⟨0, 3, ⟨1, [0, 4, 8]⟩⟩]).merge_parent.length) ∧
    ((from_slices [⟨0, 3, ⟨1, [0, 4, 8]⟩⟩]).merge
        ((from_slices [⟨0, 3, ⟨1, [0, 4, 8]⟩⟩]).find_parent 1)
        ((from_slices [⟨0, 3, ⟨1, [0, 4, 8]⟩⟩]).find_parent 0)
        false).find_parent
      ((from_slices [⟨0, 3, ⟨1, [0, 4, 8]⟩⟩]).find_parent 1) =
      min ((from_slices [⟨0, 3, ⟨1, [0, 4, 8]⟩⟩]).find_parent 1)
        ((from_slices [⟨0, 3, ⟨1, [0, 4, 8]⟩⟩]).find_parent 0) :=
  ⟨⟨by rw [from_slices_merge_parent]; exact InvP_range _, by decide, by decide,
      by decide⟩,
    (((find_idempotent_min_root_survives [⟨0, 3, ⟨1, [0, 4, 8]⟩⟩] []).2
      (from_slices [⟨0, 3, ⟨1, [0, 4, 8]⟩⟩]) 1 0 false
      (by rw [from_slices_merge_parent]; exact InvP_range _)
      (by decide) (by decide) (by decide)).1)⟩

end ClaimC7

section PartitionLemmas

/-- `sameRoot` is reflexive. -/
theorem sameRoot_refl (mp : List ℕ) (u : ℕ) : sameRoot mp u u := rfl

/-- A closure bounded by an equivalence relation that contains the
generator is inside that relation. -/
theorem eqvGen_le_of_sub {r S : ℕ → ℕ → Prop}
    (hrefl : ∀ a, S a a) (hsymm : ∀ {a b}, S a b → S b a)
    (htrans : ∀ {a b c}, S a b → S b c → S a c)
    (hsub : ∀ a b, r a b → S a b) :
    ∀ {a b}, Relation.EqvGen r a b → S a b := by
  intro a b h
  induction h with
  | rel x y hxy => exact hsub x y hxy
  | refl x => exact hrefl x
  | symm x y _ ih => exact hsymm ih
  | trans x y z _ _ ih1 ih2 => exact htrans ih1 ih2

/-- Mapping generators into a closure maps the closure into it. -/
theorem eqvGen_mono_sub {r s : ℕ → ℕ → Prop}
    (h : ∀ a b, r a b → Relation.EqvGen s a b) :
    ∀ {a b}, Relation.EqvGen r a b → Relation.EqvGen s a b := by
  intro a b hab
  induction hab with
  | rel x y hxy => exact h x y hxy
  | refl x => exact Relation.EqvGen.refl x
  | symm x y _ ih => exact Relation.EqvGen.symm x y ih
  | trans x y z _ _ ih1 ih2 => exact Relation.EqvGen.trans x y z ih1 ih2

/-- Two generators whose closures absorb each other generate the same
closure. -/
theorem eqvGen_iff_of_sub {r s : ℕ → ℕ → Prop}
    (h1 : ∀ a b, r a b → Relation.EqvGen s a b)
    (h2 : ∀ a b, s a b → Relation.EqvGen r a b) (a b : ℕ) :
    Relation.EqvGen r a b ↔ Relation.EqvGen s a b :=
  ⟨eqvGen_mono_sub h1, eqvGen_mono_sub h2⟩

/-- `merge` on a pair of distinct states repoints the larger at the
smaller. -/
theorem merge_parent_of_merge_ne (mm : ModelMerging) {a b : ℕ}
    (hne : a ≠ b) (fa : Bool) :
    (mm.merge a b fa).merge_parent =
      mm.merge_parent.set (max a b) (min a b) := by
  rw [ModelMerging.merge]
  rcases lt_or_gt_of_ne hne with h | h
  · rw [if_pos (le_of_lt h), if_pos hne, mergeInto_merge_parent]
    have h1 : max a b = b := by omega
    have h2 : min a b = a := by omega
    rw [h1, h2]
  · rw [if_neg (by omega), mergeInto_merge_parent]
    have h1 : max a b = a := by omega
    have h2 : min a b = b := by omega
    rw [h1, h2]

/-- `merge` on equal states is the identity. -/
theorem merge_self (mm : ModelMerging) (r : ℕ) (fa : Bool) :
    mm.merge r r fa = mm := by
  rw [ModelMerging.merge, if_pos le_rfl, if_neg (by omega)]

/-- The one-step `merge_all` loop body, spelled out. -/
theorem applyStep_eq (mm : ModelMerging) (closed : List (ℕ × ℕ))
    (op : MergeOperation) :
    applyStep (mm, closed) op =
      if (mm.find_parent (mm.state_map (op.slice_i, op.i)),
          mm.find_parent (mm.state_map (op.slice_j, op.j))) ∈ closed then
        (mm, closed)
      else
        (mm.merge (mm.find_parent (mm.state_map (op.slice_i, op.i)))
            (mm.find_parent (mm.state_map (op.slice_j, op.j)))
            op.is_from_alignment,
          (mm.find_parent (mm.state_map (op.slice_i, op.i)),
            mm.find_parent (mm.state_map (op.slice_j, op.j))) ::
          (mm.find_parent (mm.state_map (op.slice_j, op.j)),
            mm.find_parent (mm.state_map (op.slice_i, op.i))) :: closed) := rfl

/-- Union of two root classes, characterized on `sameRoot`: after
repointing root `mx` at root `mn`, two states share a root iff they
did before, or their old roots were `mn` and `mx` in some order. -/
theorem sameRoot_after_union {mp : List ℕ} (hinv : InvP mp) {mn mx : ℕ}
    (hlt : mn < mx) (hxlen : mx < mp.length)
    (hxroot : parentOf mp mx = mx) (hnroot : parentOf mp mn = mn)
    (u v : ℕ) :
    sameRoot (mp.set mx mn) u v ↔
      (sameRoot mp u v ∨
        (findP mp u = mn ∧ findP mp v = mx) ∨
        (findP mp u = mx ∧ findP mp v = mn)) := by
  rw [sameRoot, findP_set_union hinv hlt hxlen hxroot u,
    findP_set_union hinv hlt hxlen hxroot v, sameRoot,
    findP_of_root hnroot]
  split_ifs <;> omega

/-- The partition computed by the `merge_all` loop is the equivalence
closure of the candidate edges over the starting partition. -/
theorem applyOps_sameRoot_iff (ops : List MergeOperation) :
    ∀ (mm : ModelMerging) (closed : List (ℕ × ℕ)),
    InvP mm.merge_parent →
    (∀ pq ∈ closed, sameRoot mm.merge_parent pq.1 pq.2) →
    (∀ op ∈ ops,
      mm.state_map (op.slice_i, op.i) < mm.merge_parent.length ∧
      mm.state_map (op.slice_j, op.j) < mm.merge_parent.length) →
    ∀ u v,
      sameRoot ((ops.foldl applyStep (mm, closed)).1.merge_parent) u v ↔
      Relation.EqvGen
        (fun a b => edgeRel mm.state_map ops a b ∨
          sameRoot mm.merge_parent a b) u v := by
  induction ops with
  | nil =>
      intro mm closed hinv hclosed hvalid u v
      simp only [List.foldl_nil]
      constructor
      · intro h
        exact Relation.EqvGen.rel u v (Or.inr h)
      · refine eqvGen_le_of_sub (sameRoot_refl _)
          (fun h => h.symm) (fun h1 h2 => h1.trans h2) ?_
        intro a b hab
        rcases hab with ⟨op, hop, _⟩ | hS
        · cases hop
        · exact hS
  | cons op rest ih =>
      intro mm closed hinv hclosed hvalid u v
      simp only [List.foldl_cons, applyStep_eq]
      set i := mm.state_map (op.slice_i, op.i) with hi_def
      set j := mm.state_map (op.slice_j, op.j) with hj_def
      set ri := mm.find_parent i with hri_def
      set rj := mm.find_parent j with hrj_def
      have hriroot : parentOf mm.merge_parent ri = ri := findP_root hinv i
      have hrjroot : parentOf mm.merge_parent rj = rj := findP_root hinv j
      have hSi : findP mm.merge_parent i = ri := rfl
      have hSj : findP mm.merge_parent j = rj := rfl
      have hedge_op : edgeRel mm.state_map (op :: rest) i j := by
        exact ⟨op, List.mem_cons_self op rest, Or.inl rfl⟩
      have hrest_sub : ∀ a b, edgeRel mm.state_map rest a b →
          edgeRel mm.state_map (op :: rest) a b := by
        intro a b ⟨op', hop', h⟩
        exact ⟨op', List.mem_cons_of_mem op hop', h⟩
      by_cases hmem : (ri, rj) ∈ closed
      · rw [if_pos hmem]
        have hij : ri = rj := by
          have hsr := hclosed (ri, rj) hmem
          have h1 : findP mm.merge_parent ri = ri := findP_of_root hriroot
          have h2 : findP mm.merge_parent rj = rj := findP_of_root hrjroot
          rw [sameRoot, h1, h2] at hsr
          exact hsr
        have hSij : sameRoot mm.merge_parent i j := by
          rw [sameRoot, hSi, hSj, hij]
        rw [ih mm closed hinv hclosed
          (fun op' hop' => hvalid op' (List.mem_cons_of_mem op hop')) u v]
        refine eqvGen_iff_of_sub ?_ ?_ u v
        · intro a b hab
          rcases hab with hedge | hS
          · exact Relation.EqvGen.rel a b (Or.inl (hrest_sub a b hedge))
          · exact Relation.EqvGen.rel a b (Or.inr hS)
        · intro a b hab
          rcases hab with ⟨op', hop', hpair⟩ | hS
          · rcases List.mem_cons.mp hop' with rfl | hmem'
            · rcases hpair with hpair | hpair
              · have ha : a = i := congrArg Prod.fst hpair
                have hb : b = j := congrArg Prod.snd hpair
                subst ha
                subst hb
                exact Relation.EqvGen.rel i j (Or.inr hSij)
              · have hb : b = i := congrArg Prod.fst hpair
                have ha : a = j := congrArg Prod.snd hpair
                subst ha
                subst hb
                exact Relation.EqvGen.symm i j
                  (Relation.EqvGen.rel i j (Or.inr hSij))
            · exact Relation.EqvGen.rel a b (Or.inl ⟨op', hmem', hpair⟩)
          · exact Relation.EqvGen.rel a b (Or.inr hS)
      · rw [if_neg hmem]
        by_cases hij : ri = rj
        · rw [show mm.merge ri rj op.is_from_alignment = mm by
            rw [hij]; exact merge_self mm rj op.is_from_alignment]
          have hSij : sameRoot mm.merge_parent i j := by
            rw [sameRoot, hSi, hSj, hij]
          have hclosed' : ∀ pq ∈ (ri, rj) :: (rj, ri) :: closed,
              sameRoot mm.merge_parent pq.1 pq.2 := by
            intro pq hpq
            rcases List.mem_cons.mp hpq with rfl | hpq
            · show sameRoot mm.merge_parent ri rj
              rw [sameRoot, findP_of_root hriroot, findP_of_root hrjroot, hij]
            · rcases List.mem_cons.mp hpq with rfl | hpq
              · show sameRoot mm.merge_parent rj ri
                rw [sameRoot, findP_of_root hriroot, findP_of_root hrjroot, hij]
              · exact hclosed pq hpq
          rw [ih mm ((ri, rj) :: (rj, ri) :: closed) hinv hclosed'
            (fun op' hop' => hvalid op' (List.mem_cons_of_mem op hop')) u v]
          refine eqvGen_iff_of_sub ?_ ?_ u v
          · intro a b hab
            rcases hab with hedge | hS
            · exact Relation.EqvGen.rel a b (Or.inl (hrest_sub a b hedge))
            · exact Relation.EqvGen.rel a b (Or.inr hS)
          · intro a b hab
            rcases hab with ⟨op', hop', hpair⟩ | hS
            · rcases List.mem_cons.mp hop' with rfl | hmem'
              · rcases hpair with hpair | hpair
                · have ha : a = i := congrArg Prod.fst hpair
                  have hb : b = j := congrArg Prod.snd hpair
                  subst ha
                  subst hb
                  exact Relation.EqvGen.rel i j (Or.inr hSij)
                · have hb : b = i := congrArg Prod.fst hpair
                  have ha : a = j := congrArg Prod.snd hpair
                  subst ha
                  subst hb
                  exact Relation.EqvGen.symm i j
                    (Relation.EqvGen.rel i j (Or.inr hSij))
              · exact Relation.EqvGen.rel a b (Or.inl ⟨op', hmem', hpair⟩)
            · exact Relation.EqvGen.rel a b (Or.inr hS)
        · -- genuine merge of two distinct roots
          have hilen : i < mm.merge_parent.length :=
            (hvalid op (List.mem_cons_self op rest)).1
          have hjlen : j < mm.merge_parent.length :=
            (hvalid op (List.mem_cons_self op rest)).2
          have hrile : ri ≤ i := findP_le hinv i
          have hrjle : rj ≤ j := findP_le hinv j
          have hmxlen : max ri rj < mm.merge_parent.length := by omega
          have hmxroot : parentOf mm.merge_parent (max ri rj) = max ri rj := by
            rcases le_total ri rj with h | h
            · rw [show max ri rj = rj by omega]; exact hrjroot
            · rw [show max ri rj = ri by omega]; exact hriroot
          have hmnroot : parentOf mm.merge_parent (min ri rj) = min ri rj := by
            rcases le_total ri rj with h | h
            · rw [show min ri rj = ri by omega]; exact hriroot
            · rw [show min ri rj = rj by omega]; exact hrjroot
          have hmplt : min ri rj < max ri rj := by omega
          have hmp' : (mm.merge ri rj op.is_from_alignment).merge_parent =
              mm.merge_parent.set (max ri rj) (min ri rj) :=
            merge_parent_of_merge_ne mm hij op.is_from_alignment
          have hchar := fun a b => sameRoot_after_union hinv hmplt hmxlen
            hmxroot hmnroot a b
          have hinv' : InvP (mm.merge ri rj op.is_from_alignment).merge_parent :=
            InvP_merge hinv ri rj op.is_from_alignment
          have hsm' : (mm.merge ri rj op.is_from_alignment).state_map =
              mm.state_map := merge_state_map mm ri rj op.is_from_alignment
          have hsameroot' : ∀ a b,
              sameRoot (mm.merge ri rj op.is_from_alignment).merge_parent a b ↔
              (sameRoot mm.merge_parent a b ∨
                (findP mm.merge_parent a = min ri rj ∧
                  findP mm.merge_parent b = max ri rj) ∨
                (findP mm.merge_parent a = max ri rj ∧
                  findP mm.merge_parent b = min ri rj)) := by
            intro a b
            rw [hmp']
            exact hchar a b
          have hclosed' : ∀ pq ∈ (ri, rj) :: (rj, ri) :: closed,
              sameRoot (mm.merge ri rj op.is_from_alignment).merge_parent
                pq.1 pq.2 := by
            intro pq hpq
            rcases List.mem_cons.mp hpq with rfl | hpq
            · rw [hsameroot' ri rj, findP_of_root hriroot, findP_of_root hrjroot]
              omega
            · rcases List.mem_cons.mp hpq with rfl | hpq
              · rw [hsameroot' rj ri, findP_of_root hriroot, findP_of_root hrjroot]
                omega
              · rw [hsameroot' pq.1 pq.2]
                exact Or.inl (hclosed pq hpq)
          have hvalid' : ∀ op' ∈ rest,
              (mm.merge ri rj op.is_from_alignment).state_map
                  (op'.slice_i, op'.i) <
                (mm.merge ri rj op.is_from_alignment).merge_parent.length ∧
              (mm.merge ri rj op.is_from_alignment).state_map
                  (op'.slice_j, op'.j) <
                (mm.merge ri rj op.is_from_alignment).merge_parent.length := by
            intro op' hop'
            rw [hsm', merge_parent_length]
            exact hvalid op' (List.mem_cons_of_mem op hop')
          rw [ih (mm.merge ri rj op.is_from_alignment)
            ((ri, rj) :: (rj, ri) :: closed) hinv' hclosed' hvalid' u v, hsm']
          refine eqvGen_iff_of_sub ?_ ?_ u v
          · -- edges of rest and the merged relation embed into the closure
            intro a b hab
            rcases hab with hedge | hS'
            · exact Relation.EqvGen.rel a b (Or.inl (hrest_sub a b hedge))
            · rw [hsameroot' a b] at hS'
              rcases hS' with hS | ⟨ha, hb⟩ | ⟨ha, hb⟩
              · exact Relation.EqvGen.rel a b (Or.inr hS)
              · -- a sits in the min class, b in the max class
                have hcase : (min ri rj = ri ∧ max ri rj = rj) ∨
                    (min ri rj = rj ∧ max ri rj = ri) := by omega
                rcases hcase with ⟨hmnc, hmxc⟩ | ⟨hmnc, hmxc⟩
                · have hai : sameRoot mm.merge_parent a i := by
                    rw [sameRoot, hSi, ha, hmnc]
                  have hbj : sameRoot mm.merge_parent b j := by
                    rw [sameRoot, hSj, hb, hmxc]
                  exact Relation.EqvGen.trans a i b
                    (Relation.EqvGen.rel a i (Or.inr hai))
                    (Relation.EqvGen.trans i j b
                      (Relation.EqvGen.rel i j (Or.inl hedge_op))
                      (Relation.EqvGen.symm b j
                        (Relation.EqvGen.rel b j (Or.inr hbj))))
                · have haj : sameRoot mm.merge_parent a j := by
                    rw [sameRoot, hSj, ha, hmnc]
                  have hbi : sameRoot mm.merge_parent b i := by
                    rw [sameRoot, hSi, hb, hmxc]
                  exact Relation.EqvGen.trans a j b
                    (Relation.EqvGen.rel a j (Or.inr haj))
                    (Relation.EqvGen.trans j i b
                      (Relation.EqvGen.symm i j
                        (Relation.EqvGen.rel i j (Or.inl hedge_op)))
                      (Relation.EqvGen.symm b i
                        (Relation.EqvGen.rel b i (Or.inr hbi))))
              · have hcase : (min ri rj = ri ∧ max ri rj = rj) ∨
                    (min ri rj = rj ∧ max ri rj = ri) := by omega
                rcases hcase with ⟨hmnc, hmxc⟩ | ⟨hmnc, hmxc⟩
                · have haj : sameRoot mm.merge_parent a j := by
                    rw [sameRoot, hSj, ha, hmxc]
                  have hbi : sameRoot mm.merge_parent b i := by
                    rw [sameRoot, hSi, hb, hmnc]
                  exact Relation.EqvGen.trans a j b
                    (Relation.EqvGen.rel a j (Or.inr haj))
                    (Relation.EqvGen.trans j i b
                      (Relation.EqvGen.symm i j
                        (Relation.EqvGen.rel i j (Or.inl hedge_op)))
                      (Relation.EqvGen.symm b i
                        (Relation.EqvGen.rel b i (Or.inr hbi))))
                · have hai : sameRoot mm.merge_parent a i := by
                    rw [sameRoot, hSi, ha, hmxc]
                  have hbj : sameRoot mm.merge_parent b j := by
                    rw [sameRoot, hSj, hb, hmnc]
                  exact Relation.EqvGen.trans a i b
                    (Relation.EqvGen.rel a i (Or.inr hai))
                    (Relation.EqvGen.trans i j b
                      (Relation.EqvGen.rel i j (Or.inl hedge_op))
                      (Relation.EqvGen.symm b j
                        (Relation.EqvGen.rel b j (Or.inr hbj))))
          · -- edges of op :: rest and the old relation embed back
            intro a b hab
            rcases hab with ⟨op', hop', hpair⟩ | hS
            · rcases List.mem_cons.mp hop' with rfl | hmem'
              · have hSij' :
                    sameRoot (mm.merge ri rj op'.is_from_alignment).merge_parent
                      i j := by
                  rw [hsameroot' i j, hSi, hSj]
                  omega
                rcases hpair with hpair | hpair
                · have ha : a = i := congrArg Prod.fst hpair
                  have hb : b = j := congrArg Prod.snd hpair
                  subst ha
                  subst hb
                  exact Relation.EqvGen.rel i j (Or.inr hSij')
                · have hb : b = i := congrArg Prod.fst hpair
                  have ha : a = j := congrArg Prod.snd hpair
                  subst ha
                  subst hb
                  exact Relation.EqvGen.symm i j
                    (Relation.EqvGen.rel i j (Or.inr hSij'))
              · exact Relation.EqvGen.rel a b (Or.inl ⟨op', hmem', hpair⟩)
            · refine Relation.EqvGen.rel a b (Or.inr ?_)
              rw [hsameroot' a b]
              exact Or.inl hS

end PartitionLemmas

section ClaimC3

/-- C3, counterexample: applying the same two candidates in the two
possible orders yields different final automata - the feature vectors
differ (`[5, 4, 8]` versus `[3, 6, 8]`), because the unweighted
`(a + b) / 2` averaging is not associative over merge chains.  The
application result is not independent of candidate order. -/
theorem merge_order_changes_features :
    [exOpA, exOpB].Perm [exOpB, exOpA] ∧
    (applyOperations (from_slices [exSlice3]) [exOpA, exOpB]).hmm.states ≠
      (applyOperations (from_slices [exSlice3]) [exOpB, exOpA]).hmm.states :=
  ⟨List.Perm.swap exOpB exOpA [], by decide⟩

/-- C3, amended: for every initial chain automaton and every candidate
list whose candidates resolve to states of the automaton, applying the
candidates in any two orders yields the same final union-find partition
(two states share a root after one order iff after the other); the
transition matrix, start/stop vectors, feature vectors and segmental
flags may differ between orders. -/
theorem partition_independent_of_order (slices : List Slice)
    (ops1 ops2 : List MergeOperation) (hperm : ops1.Perm ops2)
    (hvalid : ∀ op ∈ ops1,
      (from_slices slices).state_map (op.slice_i, op.i) <
        (from_slices slices).merge_parent.length ∧
      (from_slices slices).state_map (op.slice_j, op.j) <
        (from_slices slices).merge_parent.length) :
    ∀ u v,
      sameRoot (applyOperations (from_slices slices) ops1).merge_parent u v ↔
      sameRoot (applyOperations (from_slices slices) ops2).merge_parent u v := by
  intro u v
  have hinv : InvP (from_slices slices).merge_parent := by
    rw [from_slices_merge_parent]; exact InvP_range _
  have hempty : ∀ pq ∈ ([] : List (ℕ × ℕ)),
      sameRoot (from_slices slices).merge_parent pq.1 pq.2 := by
    intro pq hpq
    cases hpq
  have h1 := applyOps_sameRoot_iff ops1 (from_slices slices) [] hinv hempty
    hvalid u v
  have h2 := applyOps_sameRoot_iff ops2 (from_slices slices) [] hinv hempty
    (fun op hop => hvalid op (hperm.mem_iff.mpr hop)) u v
  rw [applyOperations, h1, applyOperations, h2]
  refine eqvGen_iff_of_sub ?_ ?_ u v
  · intro a b hab
    rcases hab with ⟨op, hop, hpair⟩ | hS
    · exact Relation.EqvGen.rel a b (Or.inl ⟨op, hperm.mem_iff.mp hop, hpair⟩)
    · exact Relation.EqvGen.rel a b (Or.inr hS)
  · intro a b hab
    rcases hab with ⟨op, hop, hpair⟩ | hS
    · exact Relation.EqvGen.rel a b (Or.inl ⟨op, hperm.mem_iff.mpr hop, hpair⟩)
    · exact Relation.EqvGen.rel a b (Or.inr hS)

/-- C3, witness for the amended theorem on the concrete three-state
chain and the two orders of the counterexample: states 1 and 2 are
related the same way under both orders. -/
theorem partition_independent_of_order_witness :
    ([exOpA, exOpB].Perm [exOpB, exOpA] ∧
      (∀ op ∈ [exOpA, exOpB],
        (from_slices [exSlice3]).state_map (op.slice_i, op.i) <
          (from_slices [exSlice3]).merge_parent.length ∧
        (from_slices [exSlice3]).state_map (op.slice_j, op.j) <
          (from_slices [exSlice3]).merge_parent.length)) ∧
    (sameRoot (applyOperations (from_slices [exSlice3])
        [exOpA, exOpB]).merge_parent 1 2 ↔
      sameRoot (applyOperations (from_slices [exSlice3])
        [exOpB, exOpA]).merge_parent 1 2) :=
  ⟨⟨List.Perm.swap exOpB exOpA [], by decide⟩,
    partition_independent_of_order [exSlice3] [exOpA, exOpB] [exOpB, exOpA]
      (List.Perm.swap exOpB exOpA []) (by decide) 1 2⟩

end ClaimC3

section NormalizeLemmas

/-- Folds of length-preserving steps preserve length. -/
theorem foldl_length_eq {α β : Type} (g : List β → α → List β)
    (hg : ∀ t a, (g t a).length = t.length) (l : List α) (t : List β) :
    (l.foldl g t).length = t.length := by
  induction l generalizing t with
  | nil => rfl
  | cons x xs ih => rw [List.foldl_cons, ih, hg]

/-- A finite IEEE sum has finite summands. -/
theorem add_fin_parts {x y : F32} {q : ℚ} (h : F32.add x y = F32.fin q) :
    (∃ a, x = F32.fin a) ∧ ∃ b, y = F32.fin b := by
  cases x <;> cases y <;> simp_all [F32.add]

/-- Addition of finite values. -/
theorem add_fin_fin (a b : ℚ) :
    F32.add (F32.fin a) (F32.fin b) = F32.fin (a + b) := by
  show F32.fin (qadd a b) = F32.fin (a + b)
  rw [qadd_eq]

/-- Division of finite values by a nonzero finite value. -/
theorem div_fin_fin (a : ℚ) {b : ℚ} (hb : b ≠ 0) :
    F32.div (F32.fin a) (F32.fin b) = F32.fin (a / b) := by
  show (if b = 0 then _ else F32.fin (qdiv a b)) = _
  rw [if_neg hb, qdiv_eq]

/-- If an accumulation ends finite, the start and every summand were
finite. -/
theorem foldl_add_fin : ∀ (l : List F32) (acc : F32) (q : ℚ),
    l.foldl F32.add acc = F32.fin q →
    (∃ a, acc = F32.fin a) ∧ ∀ v ∈ l, ∃ b, v = F32.fin b := by
  intro l
  induction l with
  | nil =>
      intro acc q h
      exact ⟨⟨q, h⟩, fun v hv => absurd hv (List.not_mem_nil v)⟩
  | cons x xs ih =>
      intro acc q h
      rw [List.foldl_cons] at h
      obtain ⟨⟨a', ha'⟩, hall⟩ := ih (F32.add acc x) q h
      obtain ⟨hacc, hx⟩ := add_fin_parts ha'
      refine ⟨hacc, fun v hv => ?_⟩
      rcases List.mem_cons.mp hv with rfl | hv
      · exact hx
      · exact hall v hv

/-- A finite `sumF` has finite entries. -/
theorem sumF_fin_all {l : List F32} {q : ℚ} (h : F32.sumF l = F32.fin q) :
    ∀ v ∈ l, ∃ b, v = F32.fin b :=
  (foldl_add_fin l (F32.fin 0) q h).2

/-- On all-finite lists, `sumF` is the rational sum. -/
theorem foldl_add_toRat : ∀ (l : List F32),
    (∀ v ∈ l, ∃ b, v = F32.fin b) → ∀ (acc : ℚ),
    l.foldl F32.add (F32.fin acc) = F32.fin (acc + (l.map F32.toRat).sum) := by
  intro l
  induction l with
  | nil =>
      intro _ acc
      simp [F32.toRat]
  | cons x xs ih =>
      intro hall acc
      obtain ⟨b, hb⟩ := hall x (List.mem_cons_self x xs)
      rw [List.foldl_cons, hb, add_fin_fin,
        ih (fun v hv => hall v (List.mem_cons_of_mem x hv)) (acc + b),
        List.map_cons, List.sum_cons]
      refine congrArg F32.fin ?_
      rw [show F32.toRat (F32.fin b) = b from rfl]
      ring

/-- `sumF` of an all-finite list is the rational sum of its entries. -/
theorem sumF_toRat {l : List F32} (h : ∀ v ∈ l, ∃ b, v = F32.fin b) :
    F32.sumF l = F32.fin ((l.map F32.toRat).sum) := by
  have := foldl_add_toRat l h 0
  rw [F32.sumF, this, zero_add]

/-- Reading a mapped range at an in-range index. -/
theorem getF_map_range {n i : ℕ} (f : ℕ → F32) (h : i < n) :
    getF ((List.range n).map f) i = f i := by
  rw [getF, List.getD_eq_getElem?_getD, List.getElem?_map, List.getElem?_range h]
  rfl

/-- Dividing every entry of a range-indexed family by its own finite
nonzero total gives total 1. -/
theorem sumF_div_self {n : ℕ} (e : ℕ → F32) {q : ℚ}
    (hsum : F32.sumF ((List.range n).map e) = F32.fin q) (hq : q ≠ 0) :
    F32.sumF ((List.range n).map (fun i => F32.div (e i) (F32.fin q))) =
      F32.fin 1 := by
  have hall : ∀ i ∈ List.range n, ∃ b, e i = F32.fin b := fun i hi =>
    sumF_fin_all hsum (e i) (List.mem_map_of_mem e hi)
  have hpt : ∀ i ∈ List.range n,
      F32.div (e i) (F32.fin q) = F32.fin (F32.toRat (e i) / q) := by
    intro i hi
    obtain ⟨b, hb⟩ := hall i hi
    rw [hb, div_fin_fin b hq]
    rfl
  rw [List.map_congr_left hpt,
    sumF_toRat (fun v hv => by
      rcases List.mem_map.mp hv with ⟨i, hi, rfl⟩
      exact ⟨_, rfl⟩)]
  have hq' : ((List.range n).map (fun i => F32.toRat (e i))).sum = q := by
    have h2 := sumF_toRat (l := (List.range n).map e) (fun v hv => by
      rcases List.mem_map.mp hv with ⟨i, hi, rfl⟩
      exact hall i hi)
    rw [h2, List.map_map] at hsum
    exact (F32.fin.injEq _ _).mp hsum
  congr 1
  rw [List.map_map]
  have hfn : (F32.toRat ∘ fun i => F32.fin (F32.toRat (e i) / q)) =
      fun i => F32.toRat (e i) * q⁻¹ := by
    funext i
    show F32.toRat (e i) / q = _
    rw [div_eq_mul_inv]
  rw [hfn, List.sum_map_mul_right, hq', mul_inv_cancel₀ hq]

/-- Distinct cells of distinct rows have distinct flat indices. -/
theorem row_index_inj {n i1 j1 i2 j2 : ℕ} (h1 : j1 < n) (h2 : j2 < n)
    (h : i1 * n + j1 = i2 * n + j2) : i1 = i2 ∧ j1 = j2 := by
  have hn : 0 < n := by omega
  have e1 : (i1 * n + j1) / n = i1 := by
    rw [Nat.mul_comm i1 n, Nat.mul_add_div hn, Nat.div_eq_of_lt h1, Nat.add_zero]
  have e2 : (i2 * n + j2) / n = i2 := by
    rw [Nat.mul_comm i2 n, Nat.mul_add_div hn, Nat.div_eq_of_lt h2, Nat.add_zero]
  have hi : i1 = i2 := by rw [← e1, ← e2, h]
  subst hi
  exact ⟨rfl, by omega⟩

/-- An in-band flat index is inside an `n * n` matrix. -/
theorem idx_lt {n i j : ℕ} (hi : i < n) (hj : j < n) : i * n + j < n * n := by
  calc i * n + j < i * n + n := by omega
  _ = (i + 1) * n := by ring
  _ ≤ n * n := Nat.mul_le_mul_right n (by omega)

/-- The row-division fold leaves untouched indices unchanged. -/
theorem rowDiv_notmem (n i : ℕ) (scaler : F32) :
    ∀ (js : List ℕ) (t : List F32) (k : ℕ), (∀ j ∈ js, k ≠ i * n + j) →
    getF (js.foldl (fun t j =>
      t.set (i * n + j) (F32.div (getF t (i * n + j)) scaler)) t) k =
      getF t k := by
  intro js
  induction js with
  | nil => intro t k _; rfl
  | cons j1 rest ih =>
      intro t k h
      rw [List.foldl_cons, ih _ k (fun j hj => h j (List.mem_cons_of_mem j1 hj)),
        getF, getD_set_ne _ _ _ _ _ (h j1 (List.mem_cons_self j1 rest)), getF]

/-- The row-division fold divides each written entry exactly once. -/
theorem rowDiv_mem (n i : ℕ) (scaler : F32) :
    ∀ (js : List ℕ) (t : List F32) (j0 : ℕ), js.Nodup → j0 ∈ js →
      i * n + j0 < t.length →
    getF (js.foldl (fun t j =>
      t.set (i * n + j) (F32.div (getF t (i * n + j)) scaler)) t) (i * n + j0) =
      F32.div (getF t (i * n + j0)) scaler := by
  intro js
  induction js with
  | nil => intro t j0 _ h; cases h
  | cons j1 rest ih =>
      intro t j0 hnd hj0 hlen
      rw [List.foldl_cons]
      rcases List.mem_cons.mp hj0 with rfl | hj0mem
      · rw [rowDiv_notmem n i scaler rest _ _ ?_]
        · rw [getF, getD_set_self _ _ _ _ hlen]
        · intro j hj hcontra
          have hj0j : j0 = j := by omega
          exact (List.nodup_cons.mp hnd).1 (hj0j ▸ hj)
      · rw [ih _ j0 (List.nodup_cons.mp hnd).2 hj0mem (by simpa using hlen)]
        have hne : j0 ≠ j1 := by
          intro hc
          exact (List.nodup_cons.mp hnd).1 (hc ▸ hj0mem)
        rw [getF, getD_set_ne _ _ _ _ _ (by omega), getF]

/-- The row-normalization loop, characterized entrywise: a processed
row's entries are divided by that row's original sum, other rows are
untouched. -/
theorem normTrans_get (n : ℕ) :
    ∀ (is : List ℕ) (t : List F32), is.Nodup → n * n ≤ t.length →
    ∀ i j, i < n → j < n →
    getF (is.foldl (fun t i' =>
        (List.range n).foldl (fun t2 j' =>
          t2.set (i' * n + j')
            (F32.div (getF t2 (i' * n + j')) (rowSumL n t i'))) t) t)
      (i * n + j) =
      if i ∈ is then F32.div (getF t (i * n + j)) (rowSumL n t i)
      else getF t (i * n + j) := by
  intro is
  induction is with
  | nil =>
      intro t _ _ i j _ _
      rw [List.foldl_nil, if_neg (List.not_mem_nil i)]
  | cons a rest ih =>
      intro t hnd hlen i j hi hj
      rw [List.foldl_cons]
      have hlen1 : ((List.range n).foldl (fun t2 j' =>
          t2.set (a * n + j')
            (F32.div (getF t2 (a * n + j')) (rowSumL n t a))) t).length =
          t.length :=
        foldl_length_eq _ (fun t2 j' => List.length_set t2 _ _) _ t
      have hunch : ∀ i' j', j' < n → i' ≠ a →
          getF ((List.range n).foldl (fun t2 j' =>
            t2.set (a * n + j')
              (F32.div (getF t2 (a * n + j')) (rowSumL n t a))) t)
            (i' * n + j') = getF t (i' * n + j') := by
        intro i' j' hj' hne
        refine rowDiv_notmem n a (rowSumL n t a) (List.range n) t _ ?_
        intro j2 hj2 hcontra
        exact hne (row_index_inj hj' (List.mem_range.mp hj2) hcontra).1
      have hsum_unch : ∀ i', i' ≠ a →
          rowSumL n ((List.range n).foldl (fun t2 j' =>
            t2.set (a * n + j')
              (F32.div (getF t2 (a * n + j')) (rowSumL n t a))) t) i' =
          rowSumL n t i' := by
        intro i' hne
        rw [rowSumL, rowSumL]
        congr 1
        refine List.map_congr_left ?_
        intro j2 hj2
        exact hunch i' j2 (List.mem_range.mp hj2) hne
      by_cases hia : i = a
      · subst hia
        have hnot : i ∉ rest := (List.nodup_cons.mp hnd).1
        rw [ih _ (List.nodup_cons.mp hnd).2 (by rw [hlen1]; exact hlen) i j hi hj,
          if_neg hnot, if_pos (List.mem_cons_self i rest)]
        exact rowDiv_mem n i (rowSumL n t i) (List.range n) t j
          (List.nodup_range n) (List.mem_range.mpr hj)
          (lt_of_lt_of_le (idx_lt hi hj) hlen)
      · by_cases hmem : i ∈ rest
        · rw [ih _ (List.nodup_cons.mp hnd).2 (by rw [hlen1]; exact hlen) i j hi hj,
            if_pos hmem, if_pos (List.mem_cons_of_mem a hmem),
            hunch i j hj hia, hsum_unch i hia]
        · rw [ih _ (List.nodup_cons.mp hnd).2 (by rw [hlen1]; exact hlen) i j hi hj,
            if_neg hmem,
            if_neg (fun hc => by rcases List.mem_cons.mp hc with hc | hc
                                 exacts [hia hc, hmem hc]),
            hunch i j hj hia]

/-- A processed row of `normTrans` holds its original entries divided by
the original row sum. -/
theorem normTrans_entry {n : ℕ} {t : List F32} (hlen : n * n ≤ t.length)
    {i j : ℕ} (hi : i < n) (hj : j < n) :
    getF (normTrans n t) (i * n + j) =
      F32.div (getF t (i * n + j)) (rowSumL n t i) := by
  have h := normTrans_get n (List.range n) t (List.nodup_range n) hlen i j hi hj
  rw [if_pos (List.mem_range.mpr hi)] at h
  exact h

/-- A transition row with finite nonzero mass sums to exactly 1 after
`normalize_transitions`. -/
theorem normalize_rowSum {h : HiddenMarkovModel} {i : ℕ} {q : ℚ}
    (hlen : h.n_states * h.n_states ≤ h.trans.length)
    (hi : i < h.n_states) (hsum : rowSum h i = F32.fin q) (hq : q ≠ 0) :
    rowSum (normalize_transitions h) i = F32.fin 1 := by
  have hentry : ∀ j ∈ List.range h.n_states,
      getF (normalize_transitions h).trans (i * h.n_states + j) =
        F32.div (getF h.trans (i * h.n_states + j)) (F32.fin q) := by
    intro j hj
    have := normTrans_entry hlen hi (List.mem_range.mp hj)
    show getF (normTrans h.n_states h.trans) (i * h.n_states + j) = _
    rw [this]
    have : rowSumL h.n_states h.trans i = F32.fin q := hsum
    rw [this]
  show rowSumL (normalize_transitions h).n_states
    (normalize_transitions h).trans i = F32.fin 1
  have hns : (normalize_transitions h).n_states = h.n_states := rfl
  rw [hns, rowSumL, List.map_congr_left hentry]
  exact sumF_div_self (fun j => getF h.trans (i * h.n_states + j)) hsum hq

/-- The start vector sums to exactly 1 after `normalize_transitions`
when its mass is finite and nonzero; likewise the stop vector. -/
theorem normalize_startSum {h : HiddenMarkovModel} {q : ℚ}
    (hsum : startSum h = F32.fin q) (hq : q ≠ 0) :
    startSum (normalize_transitions h) = F32.fin 1 := by
  show vecSumL (normalize_transitions h).n_states
    (normalize_transitions h).start = F32.fin 1
  have hns : (normalize_transitions h).n_states = h.n_states := rfl
  have hentry : ∀ i ∈ List.range h.n_states,
      getF (normalize_transitions h).start i =
        F32.div (getF h.start i) (F32.fin q) := by
    intro i hi
    show getF ((List.range h.n_states).map
      (fun i => F32.div (getF h.start i) (vecSumL h.n_states h.start))) i = _
    rw [getF_map_range _ (List.mem_range.mp hi)]
    have : vecSumL h.n_states h.start = F32.fin q := hsum
    rw [this]
  rw [hns, vecSumL, List.map_congr_left hentry]
  exact sumF_div_self (fun i => getF h.start i) hsum hq

/-- The stop-vector analogue of `normalize_startSum`. -/
theorem normalize_stopSum {h : HiddenMarkovModel} {q : ℚ}
    (hsum : stopSum h = F32.fin q) (hq : q ≠ 0) :
    stopSum (normalize_transitions h) = F32.fin 1 := by
  show vecSumL (normalize_transitions h).n_states
    (normalize_transitions h).stop = F32.fin 1
  have hns : (normalize_transitions h).n_states = h.n_states := rfl
  have hentry : ∀ i ∈ List.range h.n_states,
      getF (normalize_transitions h).stop i =
        F32.div (getF h.stop i) (F32.fin q) := by
    intro i hi
    show getF ((List.range h.n_states).map
      (fun i => F32.div (getF h.stop i) (vecSumL h.n_states h.stop))) i = _
    rw [getF_map_range _ (List.mem_range.mp hi)]
    have : vecSumL h.n_states h.stop = F32.fin q := hsum
    rw [this]
  rw [hns, vecSumL, List.map_congr_left hentry]
  exact sumF_div_self (fun i => getF h.stop i) hsum hq

/-- The compressed transition matrix has the square shape the
normalization loop expects. -/
theorem shrinkRaw_trans_length (mm : ModelMerging) :
    (shrinkRaw mm).n_states * (shrinkRaw mm).n_states ≤
      (shrinkRaw mm).trans.length := by
  show _ ≤ (shrinkTrans mm).length
  rw [shrinkTrans]
  rw [foldl_length_eq _ (fun t a =>
    foldl_length_eq _ (fun t2 a2 => List.length_set t2 _ _) _ t) _ _,
    List.length_replicate]
  exact le_refl _

end NormalizeLemmas

section ClaimC2

/-- C2, counterexample: compacting the untouched two-frame chain of
`exSliceC2` leaves the final state's transition row with zero mass; its
normalization divides 0 by 0, the row becomes NaN, and its sum is NaN -
not within `1e-5` of 1.  (In the exact-rational model the division
`0 / 0` is the IEEE NaN case of `F32.div`.) -/
theorem shrink_zero_row_not_normalized :
    rowSum (ModelMerging.shrink (from_slices [exSliceC2])) 1 = F32.nan ∧
    ¬ ∃ q : ℚ, rowSum (ModelMerging.shrink (from_slices [exSliceC2])) 1 =
        F32.fin q ∧ |q - 1| ≤ 1 / 100000 := by
  refine ⟨by decide, ?_⟩
  rintro ⟨q, hq, _⟩
  rw [show rowSum (ModelMerging.shrink (from_slices [exSliceC2])) 1 = F32.nan
    by decide] at hq
  exact F32.noConfusion hq

/-- C2, amended: in the automaton produced by `ModelMerging::shrink`,
every transition row whose pre-normalization mass is finite and nonzero
sums to exactly 1 (in exact arithmetic, hence within `1e-5`), and the
start and stop vectors likewise sum to exactly 1 whenever their
pre-normalization mass is finite and nonzero; rows with zero mass (an
unmerged final frame state) become NaN instead. -/
theorem shrink_normalizes_nonzero_mass (mm : ModelMerging) :
    (∀ i q, i < (shrinkRaw mm).n_states →
      rowSum (shrinkRaw mm) i = F32.fin q → q ≠ 0 →
      rowSum mm.shrink i = F32.fin 1) ∧
    (∀ q, startSum (shrinkRaw mm) = F32.fin q → q ≠ 0 →
      startSum mm.shrink = F32.fin 1) ∧
    (∀ q, stopSum (shrinkRaw mm) = F32.fin q → q ≠ 0 →
      stopSum mm.shrink = F32.fin 1) := by
  refine ⟨?_, ?_, ?_⟩
  · intro i q hi hsum hq
    exact normalize_rowSum (shrinkRaw_trans_length mm) hi hsum hq
  · intro q hsum hq
    exact normalize_startSum hsum hq
  · intro q hsum hq
    exact normalize_stopSum hsum hq

/-- C2, witness at the concrete two-frame chain: row 0 has
pre-normalization mass 1, so after compaction it sums to 1, and so do
the start and stop vectors. -/
theorem shrink_normalizes_nonzero_mass_witness :
    ((0 < (shrinkRaw (from_slices [exSliceC2])).n_states ∧
      rowSum (shrinkRaw (from_slices [exSliceC2])) 0 = F32.fin 1 ∧
      (1 : ℚ) ≠ 0) ∧
     startSum (shrinkRaw (from_slices [exSliceC2])) = F32.fin 1 ∧
     stopSum (shrinkRaw (from_slices [exSliceC2])) = F32.fin 1) ∧
    (rowSum (ModelMerging.shrink (from_slices [exSliceC2])) 0 = F32.fin 1 ∧
     startSum (ModelMerging.shrink (from_slices [exSliceC2])) = F32.fin 1 ∧
     stopSum (ModelMerging.shrink (from_slices [exSliceC2])) = F32.fin 1) :=
  ⟨⟨⟨by decide, by decide, by decide⟩, by decide, by decide⟩,
    ⟨(shrink_normalizes_nonzero_mass (from_slices [exSliceC2])).1 0 1
      (by decide) (by decide) (by decide),
     (shrink_normalizes_nonzero_mass (from_slices [exSliceC2])).2.1 1
      (by decide) (by decide),
     (shrink_normalizes_nonzero_mass (from_slices [exSliceC2])).2.2 1
      (by decide) (by decide)⟩⟩

end ClaimC2

section ClusteringLemmas

/-- A predicate preserved by every step of a fold (for accumulators and
elements of the folded list) is preserved by the whole fold. -/
theorem foldl_pres_mem {α β : Type} (P : β → Prop) (f : β → α → β) :
    ∀ (l : List α), (∀ b, ∀ a ∈ l, P b → P (f b a)) →
      ∀ b, P b → P (l.foldl f b) := by
  intro l
  induction l with
  | nil => intro _ b hb; simpa using hb
  | cons x xs ih =>
      intro hpres b hb
      simp only [List.foldl_cons]
      exact ih (fun b a ha h => hpres b a (List.mem_cons_of_mem x ha) h)
        (f b x) (hpres b x (List.mem_cons_self x xs) hb)

/-- If an invariant `I` and a target `P` are both preserved by every
step of a fold, and some element of the list establishes `P` from `I`,
then the fold establishes `P`. -/
theorem foldl_estab_mem {α β : Type} (I P : β → Prop) (f : β → α → β) :
    ∀ (l : List α), (∀ b, ∀ a ∈ l, I b → I (f b a)) →
      (∀ b, ∀ a ∈ l, P b → P (f b a)) →
      ∀ a ∈ l, (∀ b, I b → P (f b a)) →
      ∀ b, I b → P (l.foldl f b) := by
  intro l
  induction l with
  | nil => intro _ _ a ha; exact absurd ha (List.not_mem_nil a)
  | cons x xs ih =>
      intro hI hP a ha hest b hb
      simp only [List.foldl_cons]
      rcases List.mem_cons.mp ha with rfl | ha'
      · exact foldl_pres_mem P f xs
          (fun b c hc h => hP b c (List.mem_cons_of_mem a hc) h)
          (f b a) (hest b hb)
      · exact ih (fun b c hc h => hI b c (List.mem_cons_of_mem x hc) h)
          (fun b c hc h => hP b c (List.mem_cons_of_mem x hc) h)
          a ha' hest (f b x) (hI b x (List.mem_cons_self x xs) hb)

/-- Reading a mapped range list inside its range. -/
theorem getD_map_range {α : Type} (f : ℕ → α) (d : α) {i n : ℕ}
    (h : i < n) : ((List.range n).map f).getD i d = f i := by
  rw [List.getD_eq_getElem?_getD, List.getElem?_map, List.getElem?_range h]
  rfl

/-- Reading a range list inside its range. -/
theorem getD_range {i n : ℕ} (h : i < n) (d : ℕ) :
    (List.range n).getD i d = i := by
  rw [List.getD_eq_getElem?_getD, List.getElem?_range h]
  rfl

/-- Out-of-range indices are fixpoints of the parent map. -/
theorem parent_out_of_range (ps : List ℕ) {i : ℕ} (h : ps.length ≤ i) :
    ps.getD i i = i :=
  List.getD_eq_default ps i h

/-- A fixpoint of the parent map is returned unchanged by the root
walk, whatever the fuel. -/
theorem clusterAux_of_root (ps : List ℕ) (i : ℕ) (h : ps.getD i i = i) :
    ∀ fuel, clusterAux fuel ps i = i := by
  intro fuel
  cases fuel with
  | zero => rfl
  | succ f =>
      have hstep : clusterAux (f + 1) ps i =
          if ps.getD i i = i then i else clusterAux f ps (ps.getD i i) :=
        rfl
      rw [hstep, if_pos h]

/-- Under the upward-forest invariant, the root walk ends at a fixpoint
of the parent map as soon as the fuel covers the remaining range. -/
theorem clusterAux_fix (ps : List ℕ) (hinv : UpInv ps) :
    ∀ fuel i, ps.length ≤ i + fuel →
      ps.getD (clusterAux fuel ps i) (clusterAux fuel ps i) =
        clusterAux fuel ps i := by
  intro fuel
  induction fuel with
  | zero =>
      intro i hfi
      have h0 : clusterAux 0 ps i = i := rfl
      rw [h0]
      exact parent_out_of_range ps (by omega)
  | succ f ih =>
      intro i hfi
      have hstep : clusterAux (f + 1) ps i =
          if ps.getD i i = i then i else clusterAux f ps (ps.getD i i) :=
        rfl
      by_cases hroot : ps.getD i i = i
      · rw [hstep, if_pos hroot]
        exact hroot
      · have hi : i < ps.length := by
          by_contra hge
          exact hroot (parent_out_of_range ps (not_lt.mp hge))
        have hbound := hinv i hi
        have hlt : i < ps.getD i i :=
          lt_of_le_of_ne hbound.1 (fun h => hroot h.symm)
        rw [hstep, if_neg hroot]
        exact ih (ps.getD i i) (by omega)

/-- Under the upward-forest invariant, root walks stay inside the
array. -/
theorem clusterAux_lt (ps : List ℕ) (hinv : UpInv ps) :
    ∀ fuel i, i < ps.length → clusterAux fuel ps i < ps.length := by
  intro fuel
  induction fuel with
  | zero => intro i hi; exact hi
  | succ f ih =>
      intro i hi
      have hstep : clusterAux (f + 1) ps i =
          if ps.getD i i = i then i else clusterAux f ps (ps.getD i i) :=
        rfl
      by_cases hroot : ps.getD i i = i
      · rw [hstep, if_pos hroot]; exact hi
      · rw [hstep, if_neg hroot]
        exact ih (ps.getD i i) (hinv i hi).2

/-- Length of the parent array after `merge_clusters`. -/
theorem union_parents_length (ps : List ℕ) (p q : ℕ) :
    (((ps.set p ps.length).set q ps.length) ++ [ps.length]).length =
      ps.length + 1 := by
  simp

/-- Entries of the merged parent array away from the two merged roots
are unchanged. -/
theorem union_getD_other (ps : List ℕ) (p q u : ℕ) (hu : u < ps.length)
    (hup : u ≠ p) (huq : u ≠ q) :
    (((ps.set p ps.length).set q ps.length) ++ [ps.length]).getD u u =
      ps.getD u u := by
  rw [List.getD_append _ _ u u (by simpa using hu),
    getD_set_ne _ _ _ _ _ huq, getD_set_ne _ _ _ _ _ hup]

/-- The two merged roots now point at the fresh top node. -/
theorem union_getD_pq (ps : List ℕ) (p q u : ℕ) (hu : u < ps.length)
    (h : u = p ∨ u = q) :
    (((ps.set p ps.length).set q ps.length) ++ [ps.length]).getD u u =
      ps.length := by
  rw [List.getD_append _ _ u u (by simpa using hu)]
  by_cases huq : u = q
  · subst huq
    exact getD_set_self _ _ _ _ (by simpa using hu)
  · rcases h with rfl | rfl
    · rw [getD_set_ne _ _ _ _ _ huq]
      exact getD_set_self _ _ _ _ hu
    · exact absurd rfl huq

/-- The fresh top node is its own parent. -/
theorem union_getD_top (ps : List ℕ) (p q : ℕ) :
    (((ps.set p ps.length).set q ps.length) ++ [ps.length]).getD
      ps.length ps.length = ps.length := by
  rw [List.getD_append_right _ _ _ _ (by simp)]
  simp

/-- `merge_clusters` preserves the upward-forest invariant. -/
theorem UpInv_union (ps : List ℕ) (p q : ℕ) (hinv : UpInv ps)
    (hp : p < ps.length) (hq : q < ps.length) :
    UpInv (((ps.set p ps.length).set q ps.length) ++ [ps.length]) := by
  intro u hu
  rw [union_parents_length] at hu
  by_cases htop : u = ps.length
  · subst htop
    rw [union_getD_top, union_parents_length]
    omega
  · have hu' : u < ps.length := by omega
    by_cases hpq : u = p ∨ u = q
    · rw [union_getD_pq ps p q u hu' hpq, union_parents_length]
      omega
    · push_neg at hpq
      rw [union_getD_other ps p q u hu' hpq.1 hpq.2, union_parents_length]
      have := hinv u hu'
      omega

/-- Root walks after `merge_clusters`: a walk that used to end in one of
the two merged roots now continues to the fresh top node, and every
other walk is unchanged. -/
theorem clusterAux_union (ps : List ℕ) (p q : ℕ) (hinv : UpInv ps)
    (hp : p < ps.length) (hq : q < ps.length)
    (hpr : ps.getD p p = p) (hqr : ps.getD q q = q) :
    ∀ fuel i, ps.length ≤ i + fuel →
      clusterAux (fuel + 1)
          (((ps.set p ps.length).set q ps.length) ++ [ps.length]) i =
        (if clusterAux fuel ps i = p ∨ clusterAux fuel ps i = q
          then ps.length else clusterAux fuel ps i) := by
  intro fuel
  induction fuel with
  | zero =>
      intro i hfi
      have hip : i ≠ p := by omega
      have hiq : i ≠ q := by omega
      have hroot' : (((ps.set p ps.length).set q ps.length) ++
          [ps.length]).getD i i = i := by
        by_cases htop : i = ps.length
        · subst htop; exact union_getD_top ps p q
        · exact parent_out_of_range _ (by rw [union_parents_length]; omega)
      rw [clusterAux_of_root _ i hroot' (0 + 1)]
      show i = if i = p ∨ i = q then ps.length else i
      rw [if_neg (not_or.mpr ⟨hip, hiq⟩)]
  | succ f ih =>
      intro i hfi
      by_cases hirange : i < ps.length
      · by_cases hpq : i = p ∨ i = q
        · have hroot : ps.getD i i = i := by
            rcases hpq with rfl | rfl <;> assumption
          have hady : (((ps.set p ps.length).set q ps.length) ++
              [ps.length]).getD i i = ps.length :=
            union_getD_pq ps p q i hirange hpq
          rw [clusterAux_of_root ps i hroot (f + 1), if_pos hpq]
          have hstep : clusterAux (f + 1 + 1)
              (((ps.set p ps.length).set q ps.length) ++ [ps.length]) i =
              if (((ps.set p ps.length).set q ps.length) ++
                  [ps.length]).getD i i = i then i
              else clusterAux (f + 1)
                (((ps.set p ps.length).set q ps.length) ++ [ps.length])
                ((((ps.set p ps.length).set q ps.length) ++
                  [ps.length]).getD i i) := rfl
          rw [hstep, hady, if_neg (by omega)]
          exact clusterAux_of_root _ ps.length (union_getD_top ps p q)
            (f + 1)
        · push_neg at hpq
          have hentry : (((ps.set p ps.length).set q ps.length) ++
              [ps.length]).getD i i = ps.getD i i :=
            union_getD_other ps p q i hirange hpq.1 hpq.2
          by_cases hroot : ps.getD i i = i
          · rw [clusterAux_of_root ps i hroot (f + 1),
              if_neg (not_or.mpr hpq),
              clusterAux_of_root _ i (hentry.trans hroot) (f + 1 + 1)]
          · have hlt : i < ps.getD i i :=
              lt_of_le_of_ne (hinv i hirange).1 (fun h => hroot h.symm)
            have hstep1 : clusterAux (f + 1 + 1)
                (((ps.set p ps.length).set q ps.length) ++ [ps.length]) i =
                clusterAux (f + 1)
                  (((ps.set p ps.length).set q ps.length) ++ [ps.length])
                  (ps.getD i i) := by
              have : clusterAux (f + 1 + 1)
                  (((ps.set p ps.length).set q ps.length) ++ [ps.length]) i =
                  if (((ps.set p ps.length).set q ps.length) ++
                      [ps.length]).getD i i = i then i
                  else clusterAux (f + 1)
                    (((ps.set p ps.length).set q ps.length) ++ [ps.length])
                    ((((ps.set p ps.length).set q ps.length) ++
                      [ps.length]).getD i i) := rfl
              rw [this, hentry, if_neg hroot]
            have hstep2 : clusterAux (f + 1) ps i =
                clusterAux f ps (ps.getD i i) := by
              have : clusterAux (f + 1) ps i =
                  if ps.getD i i = i then i
                  else clusterAux f ps (ps.getD i i) := rfl
              rw [this, if_neg hroot]
            rw [hstep1, hstep2]
            exact ih (ps.getD i i) (by omega)
      · have hroot : ps.getD i i = i :=
          parent_out_of_range ps (by omega)
        have hroot' : (((ps.set p ps.length).set q ps.length) ++
            [ps.length]).getD i i = i := by
          by_cases htop : i = ps.length
          · subst htop; exact union_getD_top ps p q
          · exact parent_out_of_range _
              (by rw [union_parents_length]; omega)
        rw [clusterAux_of_root ps i hroot (f + 1),
          if_neg (not_or.mpr ⟨by omega, by omega⟩),
          clusterAux_of_root _ i hroot' (f + 1 + 1)]

/-- `cluster` returns a fixpoint of the parent map. -/
theorem cluster_fix (st : AgglomerativeClustering)
    (hinv : UpInv st.parents) (i : ℕ) :
    st.parents.getD (st.cluster i) (st.cluster i) = st.cluster i :=
  clusterAux_fix st.parents hinv st.parents.length i (Nat.le_add_left _ _)

/-- `cluster` of an in-range instance is an in-range root. -/
theorem cluster_lt (st : AgglomerativeClustering)
    (hinv : UpInv st.parents) {i : ℕ} (hi : i < st.parents.length) :
    st.cluster i < st.parents.length :=
  clusterAux_lt st.parents hinv st.parents.length i hi

/-- The assignment has one entry per instance. -/
theorem assignment_length (st : AgglomerativeClustering) :
    st.assignment.length = st.n_instances := by
  simp [AgglomerativeClustering.assignment]

/-- Reading the assignment of an in-range instance. -/
theorem assignment_getD (st : AgglomerativeClustering) {x : ℕ}
    (hx : x < st.n_instances) : st.assignment.getD x 0 = st.cluster x :=
  getD_map_range st.cluster 0 hx

/-- Every member of the root set is the cluster of some instance. -/
theorem mem_clustersList (st : AgglomerativeClustering) {c : ℕ}
    (hc : c ∈ st.clustersList) :
    ∃ x, x < st.n_instances ∧ st.cluster x = c := by
  rw [AgglomerativeClustering.clustersList, List.mem_dedup,
    AgglomerativeClustering.assignment, List.mem_map] at hc
  obtain ⟨x, hx, hcx⟩ := hc
  exact ⟨x, List.mem_range.mp hx, hcx⟩

/-- The sum of two finite `f32` values is finite. -/
theorem add_finite {u v : F32} (hu : u.isFinite = true)
    (hv : v.isFinite = true) : (F32.add u v).isFinite = true := by
  cases u <;> cases v <;> simp_all [F32.add, F32.isFinite]

/-- A finite `f32` value is a `fin`. -/
theorem isFinite_exists {v : F32} (h : v.isFinite = true) :
    ∃ q, v = F32.fin q := by
  cases v with
  | fin q => exact ⟨q, rfl⟩
  | nan => simp [F32.isFinite] at h
  | inf => simp [F32.isFinite] at h
  | ninf => simp [F32.isFinite] at h

/-- Reading a list of finite values (with finite default) is finite. -/
theorem getF_finite (l : List F32) (hd : ∀ v ∈ l, v.isFinite = true)
    (k : ℕ) : (getF l k).isFinite = true := by
  rw [getF]
  by_cases hk : k < l.length
  · rw [List.getD_eq_getElem?_getD, List.getElem?_eq_getElem hk]
    exact hd _ (List.getElem_mem hk)
  · rw [List.getD_eq_default l _ (not_lt.mp hk)]
    rfl

/-- Dividing finite values by a nonzero finite value is finite. -/
theorem div_fin_isFinite (u : ℚ) {m : ℚ} (hm : m ≠ 0) :
    (F32.div (F32.fin u) (F32.fin m)).isFinite = true := by
  simp [F32.div, hm, F32.isFinite]

/-- The inner linkage loop keeps the running distance finite (when the
distance matrix is finite) and adds the number of instances of cluster
`j` to the `size_y` counter. -/
theorem linkInner_spec (st : AgglomerativeClustering) (a : List ℕ)
    (j x : ℕ) (hd : ∀ v ∈ st.distances, v.isFinite = true) :
    ∀ (ys : List ℕ) (d0 : F32) (s0 : ℚ), d0.isFinite = true →
      (ys.foldl (linkInner st a j x) (d0, s0)).1.isFinite = true ∧
      (ys.foldl (linkInner st a j x) (d0, s0)).2 =
        s0 + ((ys.filter (fun y => a.getD y 0 = j)).length : ℚ) := by
  intro ys
  induction ys with
  | nil =>
      intro d0 s0 h0
      exact ⟨h0, by simp⟩
  | cons y ys ih =>
      intro d0 s0 h0
      by_cases hy : a.getD y 0 = j
      · have hfin : (F32.add d0
            (getF st.distances (x * st.n_instances + y))).isFinite =
              true :=
          add_finite h0 (getF_finite st.distances hd _)
        have hstep : linkInner st a j x (d0, s0) y =
            (F32.add d0 (getF st.distances (x * st.n_instances + y)),
              qadd s0 1) := by
          rw [linkInner, if_pos hy]
        obtain ⟨h1, h2⟩ := ih
          (F32.add d0 (getF st.distances (x * st.n_instances + y)))
          (qadd s0 1) hfin
        rw [List.foldl_cons, hstep]
        refine ⟨h1, ?_⟩
        rw [h2, qadd_eq, List.filter_cons_of_pos (by simpa using hy)]
        push_cast [List.length_cons]
        ring
      · have hstep : linkInner st a j x (d0, s0) y = (d0, s0) := by
          rw [linkInner, if_neg hy]
        obtain ⟨h1, h2⟩ := ih d0 s0 h0
        rw [List.foldl_cons, hstep,
          List.filter_cons_of_neg (by simpa using hy)]
        exact ⟨h1, h2⟩

/-- The outer linkage loop: `size_x` counts the instances of cluster
`i`, the running distance stays finite, and as soon as cluster `i` is
inhabited the final `size_y` counts the instances of cluster `j` over
the whole range. -/
theorem linkOuter_spec (st : AgglomerativeClustering) (a : List ℕ)
    (i j : ℕ) (hd : ∀ v ∈ st.distances, v.isFinite = true) :
    ∀ (xs : List ℕ) (acc : ℚ × ℚ × F32), acc.2.2.isFinite = true →
      (xs.foldl (linkOuter st a i j) acc).1 =
        acc.1 + ((xs.filter (fun x => a.getD x 0 = i)).length : ℚ) ∧
      (xs.foldl (linkOuter st a i j) acc).2.2.isFinite = true ∧
      (xs.foldl (linkOuter st a i j) acc).2.1 =
        (if (xs.filter (fun x => a.getD x 0 = i)).length = 0 then acc.2.1
         else (((List.range a.length).filter
            (fun y => a.getD y 0 = j)).length : ℚ)) := by
  intro xs
  induction xs with
  | nil =>
      intro acc h0
      refine ⟨by simp, h0, by simp⟩
  | cons x xs ih =>
      intro acc h0
      by_cases hx : a.getD x 0 = i
      · have hspec := linkInner_spec st a j x hd (List.range a.length)
          acc.2.2 0 h0
        have hstep : linkOuter st a i j acc x =
            (qadd acc.1 1,
              ((List.range a.length).foldl (linkInner st a j x)
                (acc.2.2, (0 : ℚ))).2,
              ((List.range a.length).foldl (linkInner st a j x)
                (acc.2.2, (0 : ℚ))).1) := by
          rw [linkOuter, if_pos hx]
        obtain ⟨h1, h2, h3⟩ := ih
          (qadd acc.1 1,
            ((List.range a.length).foldl (linkInner st a j x)
              (acc.2.2, (0 : ℚ))).2,
            ((List.range a.length).foldl (linkInner st a j x)
              (acc.2.2, (0 : ℚ))).1)
          hspec.1
        rw [List.foldl_cons, hstep]
        have hcount : ((x :: xs).filter
            (fun x => a.getD x 0 = i)).length =
            (xs.filter (fun x => a.getD x 0 = i)).length + 1 := by
          rw [List.filter_cons_of_pos (by simpa using hx)]
          simp
        refine ⟨?_, h2, ?_⟩
        · rw [h1, qadd_eq, hcount]
          push_cast
          ring
        · have hne : ¬((xs.filter
              (fun x => a.getD x 0 = i)).length + 1 = 0) := by omega
          rw [h3, hcount, if_neg hne]
          by_cases hz : (xs.filter (fun x => a.getD x 0 = i)).length = 0
          · rw [if_pos hz]
            show ((List.range a.length).foldl (linkInner st a j x)
              (acc.2.2, (0 : ℚ))).2 = _
            rw [hspec.2]
            simp
          · rw [if_neg hz]
      · have hstep : linkOuter st a i j acc x = acc := by
          rw [linkOuter, if_neg hx]
        obtain ⟨h1, h2, h3⟩ := ih acc h0
        rw [List.foldl_cons, hstep,
          List.filter_cons_of_neg (by simpa using hx)]
        exact ⟨h1, h2, h3⟩

/-- With a finite distance matrix and both clusters inhabited in the
assignment, the average linkage is a finite value. -/
theorem linkage_finite (st : AgglomerativeClustering) (a : List ℕ)
    (i j : ℕ) (hd : ∀ v ∈ st.distances, v.isFinite = true)
    (hi : ∃ x, x < a.length ∧ a.getD x 0 = i)
    (hj : ∃ y, y < a.length ∧ a.getD y 0 = j) :
    (st.linkage a i j).isFinite = true := by
  obtain ⟨x0, hx0, hxi⟩ := hi
  obtain ⟨y0, hy0, hyj⟩ := hj
  obtain ⟨h1, h2, h3⟩ := linkOuter_spec st a i j hd (List.range a.length)
    ((0 : ℚ), (0 : ℚ), F32.fin 0) rfl
  have hcx : 0 < ((List.range a.length).filter
      (fun x => a.getD x 0 = i)).length :=
    List.length_pos_of_mem (List.mem_filter.mpr
      ⟨List.mem_range.mpr hx0, by simpa using hxi⟩)
  have hcy : 0 < ((List.range a.length).filter
      (fun y => a.getD y 0 = j)).length :=
    List.length_pos_of_mem (List.mem_filter.mpr
      ⟨List.mem_range.mpr hy0, by simpa using hyj⟩)
  simp only [AgglomerativeClustering.linkage]
  obtain ⟨dq, hdq⟩ := isFinite_exists h2
  have hne : ¬(((List.range a.length).filter
      (fun x => a.getD x 0 = i)).length = 0) := by omega
  rw [hdq, h1, h3, if_neg hne]
  refine div_fin_isFinite dq ?_
  show qmul ((0 : ℚ) + (((List.range a.length).filter
      (fun x => a.getD x 0 = i)).length : ℚ))
    ((((List.range a.length).filter
      (fun y => a.getD y 0 = j)).length : ℚ)) ≠ 0
  rw [qmul_eq, zero_add]
  exact mul_ne_zero (Nat.cast_ne_zero.mpr hcx.ne')
    (Nat.cast_ne_zero.mpr hcy.ne')

/-- Deduplicating a mapped list gives the image of the deduplicated
set. -/
theorem list_toFinset_map {α β : Type} [DecidableEq α] [DecidableEq β]
    (f : α → β) (l : List α) :
    (l.map f).toFinset = l.toFinset.image f := by
  ext b
  simp [List.mem_toFinset, List.mem_map, Finset.mem_image]

/-- With a finite distance matrix, at least two distinct roots, and a
representative in the assignment for every root, the minimum-linkage
search returns two distinct members of the root set. -/
theorem best_fold_good (st : AgglomerativeClustering) (a cl : List ℕ)
    (hd : ∀ v ∈ st.distances, v.isFinite = true)
    (hrep : ∀ c ∈ cl, ∃ x, x < a.length ∧ a.getD x 0 = c)
    (hnd : cl.Nodup) (h2 : 2 ≤ cl.length) :
    ((cl.foldl (fun acc ti => cl.foldl (bestStep st a ti) acc)
        (F32.inf, ((0 : ℕ), (0 : ℕ)))).2.1 ≠
      (cl.foldl (fun acc ti => cl.foldl (bestStep st a ti) acc)
        (F32.inf, ((0 : ℕ), (0 : ℕ)))).2.2) ∧
    (cl.foldl (fun acc ti => cl.foldl (bestStep st a ti) acc)
        (F32.inf, ((0 : ℕ), (0 : ℕ)))).2.1 ∈ cl ∧
    (cl.foldl (fun acc ti => cl.foldl (bestStep st a ti) acc)
        (F32.inf, ((0 : ℕ), (0 : ℕ)))).2.2 ∈ cl := by
  have hPstep : ∀ (b : F32 × ℕ × ℕ) (ti tj : ℕ), ti ∈ cl → tj ∈ cl →
      (b.2.1 ≠ b.2.2 ∧ b.2.1 ∈ cl ∧ b.2.2 ∈ cl) →
      ((bestStep st a ti b tj).2.1 ≠ (bestStep st a ti b tj).2.2 ∧
        (bestStep st a ti b tj).2.1 ∈ cl ∧
        (bestStep st a ti b tj).2.2 ∈ cl) := by
    intro b ti tj hti htj hb
    rw [bestStep]
    split_ifs with hne hlt
    · exact ⟨hne, hti, htj⟩
    · exact hb
    · exact hb
  have hIstep : ∀ (b : F32 × ℕ × ℕ) (ti tj : ℕ), ti ∈ cl → tj ∈ cl →
      ((b.2.1 ≠ b.2.2 ∧ b.2.1 ∈ cl ∧ b.2.2 ∈ cl) ∨
        b = (F32.inf, ((0 : ℕ), (0 : ℕ)))) →
      (((bestStep st a ti b tj).2.1 ≠ (bestStep st a ti b tj).2.2 ∧
          (bestStep st a ti b tj).2.1 ∈ cl ∧
          (bestStep st a ti b tj).2.2 ∈ cl) ∨
        bestStep st a ti b tj = (F32.inf, ((0 : ℕ), (0 : ℕ)))) := by
    intro b ti tj hti htj hb
    rcases hb with hb | hb
    · exact Or.inl (hPstep b ti tj hti htj hb)
    · subst hb
      rw [bestStep]
      split_ifs with hne hlt
      · exact Or.inl ⟨hne, hti, htj⟩
      · exact Or.inr rfl
      · exact Or.inr rfl
  obtain ⟨c0, tl, rfl⟩ : ∃ c0 tl, cl = c0 :: tl := by
    cases cl with
    | nil => exact absurd h2 (by simp)
    | cons c tlx => exact ⟨c, tlx, rfl⟩
  obtain ⟨c1, rest, rfl⟩ : ∃ c1 rest, tl = c1 :: rest := by
    cases tl with
    | nil => exact absurd h2 (by simp)
    | cons c tlx => exact ⟨c, tlx, rfl⟩
  have hne01 : c0 ≠ c1 := by
    have hn := List.nodup_cons.mp hnd
    exact fun h => hn.1 (h ▸ List.mem_cons_self c1 rest)
  have hc0 : c0 ∈ c0 :: c1 :: rest := List.mem_cons_self _ _
  have hc1 : c1 ∈ c0 :: c1 :: rest :=
    List.mem_cons_of_mem _ (List.mem_cons_self _ _)
  have hfin : (st.linkage a c0 c1).isFinite = true :=
    linkage_finite st a c0 c1 hd (hrep c0 hc0) (hrep c1 hc1)
  have hest : ∀ b : F32 × ℕ × ℕ,
      ((b.2.1 ≠ b.2.2 ∧ b.2.1 ∈ c0 :: c1 :: rest ∧
          b.2.2 ∈ c0 :: c1 :: rest) ∨
        b = (F32.inf, ((0 : ℕ), (0 : ℕ)))) →
      ((bestStep st a c0 b c1).2.1 ≠ (bestStep st a c0 b c1).2.2 ∧
        (bestStep st a c0 b c1).2.1 ∈ c0 :: c1 :: rest ∧
        (bestStep st a c0 b c1).2.2 ∈ c0 :: c1 :: rest) := by
    intro b hb
    rcases hb with hb | hb
    · exact hPstep b c0 c1 hc0 hc1 hb
    · subst hb
      obtain ⟨lq, hlq⟩ := isFinite_exists hfin
      rw [bestStep, if_pos hne01]
      have hlt : F32.lt (st.linkage a c0 c1)
          ((F32.inf, ((0 : ℕ), (0 : ℕ))) : F32 × ℕ × ℕ).1 = true := by
        rw [hlq]; rfl
      rw [if_pos hlt]
      exact ⟨hne01, hc0, hc1⟩
  refine foldl_estab_mem
    (fun b : F32 × ℕ × ℕ =>
      (b.2.1 ≠ b.2.2 ∧ b.2.1 ∈ c0 :: c1 :: rest ∧
        b.2.2 ∈ c0 :: c1 :: rest) ∨
      b = (F32.inf, ((0 : ℕ), (0 : ℕ))))
    (fun b : F32 × ℕ × ℕ =>
      b.2.1 ≠ b.2.2 ∧ b.2.1 ∈ c0 :: c1 :: rest ∧
        b.2.2 ∈ c0 :: c1 :: rest)
    (fun acc ti => (c0 :: c1 :: rest).foldl (bestStep st a ti) acc)
    (c0 :: c1 :: rest)
    ?_ ?_ c0 hc0 ?_ (F32.inf, ((0 : ℕ), (0 : ℕ))) (Or.inr rfl)
  · intro b ti hti hb
    exact foldl_pres_mem _ (bestStep st a ti) (c0 :: c1 :: rest)
      (fun b tj htj h => hIstep b ti tj hti htj h) b hb
  · intro b ti hti hb
    exact foldl_pres_mem _ (bestStep st a ti) (c0 :: c1 :: rest)
      (fun b tj htj h => hPstep b ti tj hti htj h) b hb
  · intro b hb
    exact foldl_estab_mem _ _ (bestStep st a c0) (c0 :: c1 :: rest)
      (fun b tj htj h => hIstep b c0 tj hc0 htj h)
      (fun b tj htj h => hPstep b c0 tj hc0 htj h)
      c1 hc1 hest b hb

/-- One iteration of the clustering loop with at least two clusters and
a finite distance matrix: the merged state keeps the invariants and has
exactly one root fewer. -/
theorem merge_step (st : AgglomerativeClustering)
    (hinv : UpInv st.parents) (hn : st.n_instances ≤ st.parents.length)
    (hd : ∀ v ∈ st.distances, v.isFinite = true)
    (hcount : st.clustersList.length = st.n_clusters)
    (h2 : 2 ≤ st.n_clusters) :
    UpInv (st.merge).2.parents ∧
    (st.merge).2.n_instances = st.n_instances ∧
    (st.merge).2.distances = st.distances ∧
    st.n_instances ≤ (st.merge).2.parents.length ∧
    (st.merge).2.n_clusters = st.n_clusters - 1 ∧
    (st.merge).2.clustersList.length = st.n_clusters - 1 := by
  have hrep : ∀ c ∈ st.clustersList, ∃ x, x < st.assignment.length ∧
      st.assignment.getD x 0 = c := by
    intro c hc
    obtain ⟨x, hx, hcx⟩ := mem_clustersList st hc
    refine ⟨x, ?_, ?_⟩
    · rw [assignment_length]; exact hx
    · rw [assignment_getD st hx]; exact hcx
  have hnd : st.clustersList.Nodup := by
    rw [AgglomerativeClustering.clustersList]
    exact List.nodup_dedup _
  have hlen2 : 2 ≤ st.clustersList.length := by rw [hcount]; exact h2
  obtain ⟨hbne, hbmem1, hbmem2⟩ :=
    best_fold_good st st.assignment st.clustersList hd hrep hnd hlen2
  set best := st.clustersList.foldl
    (fun acc ti => st.clustersList.foldl (bestStep st st.assignment ti) acc)
    (F32.inf, ((0 : ℕ), (0 : ℕ))) with hbest
  have hmerge2 : (st.merge).2 =
      { parents := ((st.parents.set best.2.1 st.parents.length).set
          best.2.2 st.parents.length) ++ [st.parents.length]
        distances := st.distances
        n_instances := st.n_instances
        n_clusters := st.n_clusters - 1 } := by
    rw [hbest]
    rfl
  obtain ⟨xP, hxP, hPval⟩ := mem_clustersList st hbmem1
  obtain ⟨xQ, hxQ, hQval⟩ := mem_clustersList st hbmem2
  have hPlt : best.2.1 < st.parents.length := by
    rw [← hPval]; exact cluster_lt st hinv (lt_of_lt_of_le hxP hn)
  have hQlt : best.2.2 < st.parents.length := by
    rw [← hQval]; exact cluster_lt st hinv (lt_of_lt_of_le hxQ hn)
  have hProot : st.parents.getD best.2.1 best.2.1 = best.2.1 := by
    rw [← hPval]; exact cluster_fix st hinv xP
  have hQroot : st.parents.getD best.2.2 best.2.2 = best.2.2 := by
    rw [← hQval]; exact cluster_fix st hinv xQ
  have hni : (st.merge).2.n_instances = st.n_instances := by rw [hmerge2]
  have hclu : ∀ i, (st.merge).2.cluster i =
      (if st.cluster i = best.2.1 ∨ st.cluster i = best.2.2
        then st.parents.length else st.cluster i) := by
    intro i
    rw [hmerge2]
    show clusterAux (((st.parents.set best.2.1 st.parents.length).set
        best.2.2 st.parents.length) ++ [st.parents.length]).length
      (((st.parents.set best.2.1 st.parents.length).set
        best.2.2 st.parents.length) ++ [st.parents.length]) i = _
    rw [union_parents_length]
    exact clusterAux_union st.parents best.2.1 best.2.2 hinv hPlt hQlt
      hProot hQroot st.parents.length i (Nat.le_add_left _ _)
  have hassign : (st.merge).2.assignment =
      st.assignment.map (fun c =>
        if c = best.2.1 ∨ c = best.2.2 then st.parents.length else c) := by
    rw [AgglomerativeClustering.assignment,
      AgglomerativeClustering.assignment, hni, List.map_map]
    exact List.map_congr_left (fun i _ => by rw [hclu i]; rfl)
  have helems : ∀ c ∈ st.assignment, c < st.parents.length := by
    intro c hc
    rw [AgglomerativeClustering.assignment, List.mem_map] at hc
    obtain ⟨x, hx, rfl⟩ := hc
    exact cluster_lt st hinv (lt_of_lt_of_le (List.mem_range.mp hx) hn)
  have hPassign : best.2.1 ∈ st.assignment := by
    have hmem := hbmem1
    rw [AgglomerativeClustering.clustersList, List.mem_dedup] at hmem
    exact hmem
  have hQassign : best.2.2 ∈ st.assignment := by
    have hmem := hbmem2
    rw [AgglomerativeClustering.clustersList, List.mem_dedup] at hmem
    exact hmem
  have hcard : (st.merge).2.clustersList.length = st.n_clusters - 1 := by
    rw [AgglomerativeClustering.clustersList, ← List.card_toFinset,
      hassign, list_toFinset_map]
    have hPQsub : ({best.2.1, best.2.2} : Finset ℕ) ⊆
        st.assignment.toFinset := by
      intro z hz
      rcases Finset.mem_insert.mp hz with rfl | hz
      · exact List.mem_toFinset.mpr hPassign
      · rw [Finset.mem_singleton] at hz
        subst hz
        exact List.mem_toFinset.mpr hQassign
    have hkS : st.parents.length ∉ st.assignment.toFinset := by
      intro hk
      exact absurd (helems _ (List.mem_toFinset.mp hk)) (lt_irrefl _)
    have himg : Finset.image (fun c =>
        if c = best.2.1 ∨ c = best.2.2 then st.parents.length else c)
        st.assignment.toFinset =
        insert st.parents.length
          (st.assignment.toFinset \ {best.2.1, best.2.2}) := by
      ext r
      constructor
      · intro hr
        obtain ⟨s, hs, hfs⟩ := Finset.mem_image.mp hr
        by_cases hsPQ : s = best.2.1 ∨ s = best.2.2
        · rw [if_pos hsPQ] at hfs
          exact Finset.mem_insert.mpr (Or.inl hfs.symm)
        · rw [if_neg hsPQ] at hfs
          subst hfs
          refine Finset.mem_insert.mpr
            (Or.inr (Finset.mem_sdiff.mpr ⟨hs, ?_⟩))
          intro hmem
          rcases Finset.mem_insert.mp hmem with rfl | hmem
          · exact hsPQ (Or.inl rfl)
          · rw [Finset.mem_singleton] at hmem
            exact hsPQ (Or.inr hmem)
      · intro hr
        rcases Finset.mem_insert.mp hr with rfl | hr
        · refine Finset.mem_image.mpr
            ⟨best.2.1, List.mem_toFinset.mpr hPassign, ?_⟩
          rw [if_pos (Or.inl rfl)]
        · obtain ⟨hrS, hrPQ⟩ := Finset.mem_sdiff.mp hr
          refine Finset.mem_image.mpr ⟨r, hrS, ?_⟩
          have hnot : ¬(r = best.2.1 ∨ r = best.2.2) := by
            intro h
            apply hrPQ
            rcases h with rfl | rfl
            · exact Finset.mem_insert_self _ _
            · exact Finset.mem_insert.mpr
                (Or.inr (Finset.mem_singleton_self _))
          rw [if_neg hnot]
    rw [himg, Finset.card_insert_of_not_mem
        (fun hmem => hkS (Finset.mem_sdiff.mp hmem).1),
      Finset.card_sdiff hPQsub]
    have hpair : ({best.2.1, best.2.2} : Finset ℕ).card = 2 :=
      Finset.card_pair hbne
    have hScard : st.assignment.toFinset.card = st.n_clusters := by
      rw [List.card_toFinset]
      exact hcount
    rw [hpair, hScard]
    omega
  refine ⟨?_, hni, ?_, ?_, ?_, hcard⟩
  · rw [hmerge2]
    exact UpInv_union st.parents best.2.1 best.2.2 hinv hPlt hQlt
  · rw [hmerge2]
  · rw [hmerge2]
    show st.n_instances ≤
      (((st.parents.set best.2.1 st.parents.length).set
        best.2.2 st.parents.length) ++ [st.parents.length]).length
    rw [union_parents_length]
    omega
  · rw [hmerge2]

/-- Each loop iteration trades one cluster for one recorded operation:
the operation count plus the cluster counter is constant, and the
cluster counter always matches the number of distinct roots. -/
theorem clusteringLoop_invariant (threshold : F32) :
    ∀ (fuel : ℕ) (st : AgglomerativeClustering) (d : F32)
      (acc : List ClusteringOperation),
      UpInv st.parents → st.n_instances ≤ st.parents.length →
      (∀ v ∈ st.distances, v.isFinite = true) →
      st.clustersList.length = st.n_clusters →
      (clusteringLoop threshold fuel st d acc).1.length +
          (clusteringLoop threshold fuel st d acc).2.n_clusters =
        acc.length + st.n_clusters ∧
      (clusteringLoop threshold fuel st d acc).2.clustersList.length =
        (clusteringLoop threshold fuel st d acc).2.n_clusters := by
  intro fuel
  induction fuel with
  | zero =>
      intro st d acc _ _ _ hcount
      constructor
      · show (acc.reverse, st).1.length + (acc.reverse, st).2.n_clusters = _
        simp
      · exact hcount
  | succ f ih =>
      intro st d acc hinv hn hd hcount
      have hunfold : clusteringLoop threshold (f + 1) st d acc =
          if 1 < st.n_clusters ∧ F32.lt d threshold = true then
            clusteringLoop threshold f (st.merge).2 (st.merge).1.distance
              ((st.merge).1 :: acc)
          else (acc.reverse, st) := rfl
      by_cases hcond : 1 < st.n_clusters ∧ F32.lt d threshold = true
      · rw [hunfold, if_pos hcond]
        obtain ⟨hinv', hni', hdist', hn', hnc', hcl'⟩ :=
          merge_step st hinv hn hd hcount (by omega)
        have hd' : ∀ v ∈ (st.merge).2.distances, v.isFinite = true := by
          rw [hdist']; exact hd
        have hn'' : (st.merge).2.n_instances ≤
            (st.merge).2.parents.length := by
          rw [hni']; exact hn'
        have hcount' : (st.merge).2.clustersList.length =
            (st.merge).2.n_clusters := by
          rw [hcl', hnc']
        obtain ⟨h1, h2⟩ := ih (st.merge).2 (st.merge).1.distance
          ((st.merge).1 :: acc) hinv' hn'' hd' hcount'
        refine ⟨?_, h2⟩
        rw [h1, hnc', List.length_cons]
        omega
      · rw [hunfold, if_neg hcond]
        constructor
        · show (acc.reverse, st).1.length +
            (acc.reverse, st).2.n_clusters = _
          simp
        · exact hcount

end ClusteringLemmas

section ClaimC6

/-- **C6, counterexample**: on the all-infinite 2-by-2 distance matrix
(infinite distances do arise, from alignments that never reach the
terminal cell) with percentile 1/2, no linkage comparison fires, so the
loop merges the degenerate initial pair `(0, 0)`: one operation is
recorded, root 0 is reparented under the fresh node 2, and the returned
root set `{2, 1}` still has two members, yet 2 − 2 = 0 ≠ 1. -/
theorem clustering_op_count_counterexample :
    (AgglomerativeClustering.clustering
      [F32.inf, F32.inf, F32.inf, F32.inf] 2 (mkRat 1 2)).1.length = 1 ∧
    (AgglomerativeClustering.clustering
      [F32.inf, F32.inf, F32.inf, F32.inf] 2 (mkRat 1 2)).2.length = 2 ∧
    (1 : ℕ) ≠ 2 - 2 := by decide

/-- **C6** (amended): for every distance matrix all of whose entries
are finite, over `n` leaves, and every percentile threshold,
`AgglomerativeClustering::clustering` returns an operations list whose
length equals `n` minus the number of distinct cluster roots in the
returned root set. -/
theorem clustering_op_count (distances : List F32) (n : ℕ) (perc : ℚ)
    (hd : ∀ v ∈ distances, v.isFinite = true) :
    (AgglomerativeClustering.clustering distances n perc).1.length =
      n - (AgglomerativeClustering.clustering
        distances n perc).2.length := by
  have hinv0 : UpInv (List.range n) := by
    intro p hp
    rw [List.length_range] at hp
    rw [getD_range hp p]
    refine ⟨le_refl p, ?_⟩
    rw [List.length_range]
    exact hp
  have hclu0 : ∀ i, AgglomerativeClustering.cluster
      ⟨List.range n, distances, n, n⟩ i = i := by
    intro i
    show clusterAux (List.range n).length (List.range n) i = i
    refine clusterAux_of_root _ i ?_ _
    by_cases hi : i < n
    · exact getD_range hi i
    · exact parent_out_of_range _ (by rw [List.length_range]; omega)
  have hassign0 : AgglomerativeClustering.assignment
      ⟨List.range n, distances, n, n⟩ = List.range n := by
    rw [AgglomerativeClustering.assignment]
    show (List.range n).map (AgglomerativeClustering.cluster
      ⟨List.range n, distances, n, n⟩) = List.range n
    have hmc : (List.range n).map (AgglomerativeClustering.cluster
        ⟨List.range n, distances, n, n⟩) = (List.range n).map id :=
      List.map_congr_left (fun i _ => hclu0 i)
    rw [hmc, List.map_id]
  have hcount0 : (AgglomerativeClustering.clustersList
      ⟨List.range n, distances, n, n⟩).length =
      (⟨List.range n, distances, n, n⟩ :
        AgglomerativeClustering).n_clusters := by
    rw [AgglomerativeClustering.clustersList, hassign0,
      List.dedup_eq_self.mpr (List.nodup_range n)]
    exact List.length_range n
  obtain ⟨h1, h2⟩ := clusteringLoop_invariant (percentile distances perc)
    n ⟨List.range n, distances, n, n⟩ (F32.fin 0) [] hinv0
    (by show n ≤ (List.range n).length; rw [List.length_range])
    hd hcount0
  simp only [List.length_nil, Nat.zero_add] at h1
  simp only [AgglomerativeClustering.clustering]
  rw [h2]
  omega

/-- Witness: on a finite 2-by-2 distance matrix the two leaves are
merged once and one root remains, so 1 = 2 − 1 operations are
recorded. -/
theorem clustering_op_count_witness :
    (∀ v ∈ [F32.fin 0, F32.fin 1, F32.fin 1, F32.fin 0],
      v.isFinite = true) ∧
    (AgglomerativeClustering.clustering
      [F32.fin 0, F32.fin 1, F32.fin 1, F32.fin 0] 2
      (mkRat 1 2)).1.length =
      2 - (AgglomerativeClustering.clustering
        [F32.fin 0, F32.fin 1, F32.fin 1, F32.fin 0] 2
        (mkRat 1 2)).2.length :=
  ⟨by decide, clustering_op_count
    [F32.fin 0, F32.fin 1, F32.fin 1, F32.fin 0] 2 (mkRat 1 2)
    (by decide)⟩

end ClaimC6

end APD
